import Mathlib

/-!
Verification development for the intrusive linked-pointer library
(src/linked_ptr.h).  A handle (C++ class linked_ptr) pairs a raw resource
pointer with an intrusive circular doubly linked list node
(details::linked_ptr_base); ring membership replaces a reference count.

Embedding choices, following the design note of the specification
(self-referential nodes are simulated by an arena of nodes addressed by
stable indices):
* every linked_ptr object alive in the program is a slot in an arena,
  addressed by a natural-number id; the linked_ptr_base neighbour pointers
  _left and _right become ids of other slots;
* raw pointers T* are modelled as natural-number addresses, with 0 playing
  the role of nullptr (delete on 0 is a no-op, as in C++);
* each call delete _ptr on a non-null pointer appends that address to a
  log (freed); "released exactly once" becomes a statement about the log;
* each C++ member function is translated statement by statement, reading
  and writing fields in the same order as the source.
-/

namespace LinkedPtr

/-- One linked_ptr object: the raw pointer field _ptr (0 = nullptr) and the
two neighbour fields _left and _right of its embedded linked_ptr_base. -/
structure Obj where
  ptr : Nat
  left : Nat
  right : Nat
deriving DecidableEq, Repr

/-- The global state: an arena of linked_ptr slots (objs, with dom listing
the ids of the slots currently alive and next the first never-used id) and
the log of non-null addresses passed to delete (freed). -/
structure St where
  next : Nat
  objs : Nat → Option Obj
  dom : List Nat
  freed : List Nat

/-- Reading lhs.get() / the _ptr field; a dead slot reads as null. -/
def ptrOf (s : St) (i : Nat) : Nat :=
  ((s.objs i).map Obj.ptr).getD 0

/-- Reading the _left field; a dead slot reads as self-referential. -/
def leftOf (s : St) (i : Nat) : Nat :=
  ((s.objs i).map Obj.left).getD i

/-- Reading the _right field; a dead slot reads as self-referential. -/
def rightOf (s : St) (i : Nat) : Nat :=
  ((s.objs i).map Obj.right).getD i

/-- linked_ptr_base::unique (source line 22): _left == this && _right == this. -/
def uniqueAt (s : St) (i : Nat) : Bool :=
  (leftOf s i == i) && (rightOf s i == i)

/-- Writing the _left field of slot i (no-op on a dead slot). -/
def setLeft (s : St) (i v : Nat) : St :=
  { s with objs := Function.update s.objs i ((s.objs i).map fun o => { o with left := v }) }

/-- Writing the _right field of slot i (no-op on a dead slot). -/
def setRight (s : St) (i v : Nat) : St :=
  { s with objs := Function.update s.objs i ((s.objs i).map fun o => { o with right := v }) }

/-- Writing the _ptr field of slot i (no-op on a dead slot). -/
def setPtr (s : St) (i v : Nat) : St :=
  { s with objs := Function.update s.objs i ((s.objs i).map fun o => { o with ptr := v }) }

/-- linked_ptr_base::insert_after (source lines 42-48), this = n, rhs = t:
_right = rhs._right; _right->_left = this; _left = &rhs; rhs._right = this. -/
def insertAfter (s : St) (n t : Nat) : St :=
  let s1 := setRight s n (rightOf s t)
  let s2 := setLeft s1 (rightOf s1 n) n
  let s3 := setLeft s2 n t
  setRight s3 t n

/-- linked_ptr_base::erase (source lines 50-54), this = i:
_right->_left = _left; _left->_right = _right; _right = _left = this. -/
def eraseNode (s : St) (i : Nat) : St :=
  let s1 := setLeft s (rightOf s i) (leftOf s i)
  let s2 := setRight s1 (leftOf s1 i) (rightOf s1 i)
  setLeft (setRight s2 i i) i i

/-- linked_ptr_base::swap (source lines 26-38), this = a, other = b.
The two std::swap calls exchange the neighbour fields; each subsequent
branch re-reads unique() on the current state and repoints the new
neighbours through the possibly already-updated fields, exactly as the
source does. -/
def baseSwap (s : St) (a b : Nat) : St :=
  if uniqueAt s a && uniqueAt s b then s
  else
    let s1 := setRight (setRight s a (rightOf s b)) b (rightOf s a)
    let s2 := setLeft (setLeft s1 a (leftOf s1 b)) b (leftOf s1 a)
    let s3 :=
      if uniqueAt s2 a then s2
      else
        let u1 := setRight s2 (leftOf s2 a) a
        setLeft u1 (rightOf u1 a) a
    if uniqueAt s3 b then s3
    else
      let u2 := setRight s3 (leftOf s3 b) b
      setLeft u2 (rightOf u2 b) b

/-- Allocate a fresh linked_ptr slot holding the given object. -/
def alloc (s : St) (o : Obj) : St :=
  { next := s.next + 1
    objs := Function.update s.objs s.next (some o)
    dom := s.next :: s.dom
    freed := s.freed }

/-- Constructor from a raw pointer (source lines 87-88) and, with p = 0,
the default constructor (line 78): _ptr = p, base default-constructed
self-referential. -/
def hMkRaw (s : St) (p : Nat) : St :=
  alloc s ⟨p, s.next, s.next⟩

/-- The effect of delete _ptr: a no-op on nullptr, otherwise the resource
at that address is deallocated (logged in freed). -/
def delPtr (s : St) (p : Nat) : St :=
  if p = 0 then s else { s with freed := s.freed ++ [p] }

/-- Copy / covariant-copy constructor (source lines 82-85 and 90-94),
new object n from source handle src: members default-constructed, then
base.insert_after(rhs.base); _ptr = rhs.get(). -/
def hCopy (s : St) (src : Nat) : St :=
  let n := s.next
  let s1 := alloc s ⟨0, n, n⟩
  let s2 := insertAfter s1 n src
  setPtr s2 n (ptrOf s2 src)

/-- linked_ptr::reset() (source lines 119-123):
if (unique()) delete _ptr; else base.erase(); _ptr = nullptr. -/
def hReset0 (s : St) (i : Nat) : St :=
  let s1 := if uniqueAt s i then delPtr s (ptrOf s i) else eraseNode s i
  setPtr s1 i 0

/-- linked_ptr::reset(Y* ptr) (source lines 112-117):
if (unique()) delete _ptr; else base.erase(); _ptr = ptr. -/
def hResetP (s : St) (i p : Nat) : St :=
  let s1 := if uniqueAt s i then delPtr s (ptrOf s i) else eraseNode s i
  setPtr s1 i p

/-- Destructor (source lines 96-98): reset(), then the slot's lifetime ends. -/
def hDestroy (s : St) (i : Nat) : St :=
  let s1 := hReset0 s i
  { s1 with objs := Function.update s1.objs i none, dom := s1.dom.erase i }

/-- linked_ptr::swap (source lines 125-131): early return when the two
_ptr fields are equal, otherwise base.swap(other.base) followed by
std::swap(_ptr, other._ptr). -/
def hSwap (s : St) (i j : Nat) : St :=
  if ptrOf s i == ptrOf s j then s
  else
    let s1 := baseSwap s i j
    let pi := ptrOf s1 i
    let pj := ptrOf s1 j
    setPtr (setPtr s1 i pj) j pi

/-- explicit operator bool (source lines 152-154): _ptr != nullptr. -/
def hBool (s : St) (i : Nat) : Bool :=
  ptrOf s i != 0

/-- The implicitly generated copy-assignment operator that same-type
assignment between two linked_ptr objects actually invokes: the user
template operator= at source lines 135-140 is not a copy-assignment
operator (and its body calls the unqualified name insert_after, which does
not resolve, so it is ill-formed when instantiated).  The generated
operator performs a memberwise copy of _ptr and of base (_left, _right). -/
def assignMemberwise (s : St) (i j : Nat) : St :=
  { s with objs := Function.update s.objs i (s.objs j) }

/-! ## The six comparison operators (source lines 158-186)

They read only lhs.get() and rhs.get(); std::less over void* addresses is
the order on the natural-number addresses (0 = nullptr). -/

/-- operator== (lines 158-161): lhs.get() == rhs.get(). -/
def lpEq (x y : Obj) : Bool := x.ptr == y.ptr

/-- operator!= (lines 163-166): !(lhs == rhs). -/
def lpNe (x y : Obj) : Bool := !(lpEq x y)

/-- operator< (lines 168-171): std::less over the two addresses. -/
def lpLt (x y : Obj) : Bool := x.ptr < y.ptr

/-- operator> (lines 173-176): !(lhs < rhs) && !(lhs == rhs). -/
def lpGt (x y : Obj) : Bool := !(lpLt x y) && !(lpEq x y)

/-- operator<= (lines 178-181): !(lhs > rhs). -/
def lpLe (x y : Obj) : Bool := !(lpGt x y)

/-- operator>= (lines 183-186): !(lhs < rhs). -/
def lpGe (x y : Obj) : Bool := !(lpLt x y)

/-! ## Traces of handle operations

The public surface of the handle (spec section 6): construction (default,
from a raw pointer, copy), reset with and without a replacement pointer,
swap, and destruction.  Traces start from the empty state; okOp records
the validity conditions a well-defined C++ execution obeys: operations act
on objects that are alive, and a raw pointer handed to a constructor or to
reset comes from a fresh allocation (it is non-null only if no live handle
holds it and it was never deleted). -/

inductive Op where
  | mkDefault : Op
  | mkRaw (p : Nat) : Op
  | copy (src : Nat) : Op
  | reset0 (i : Nat) : Op
  | resetP (i p : Nat) : Op
  | destroy (i : Nat) : Op
  | swap (i j : Nat) : Op
deriving DecidableEq, Repr

/-- The empty initial state: no handles, nothing deleted. -/
def init : St :=
  { next := 0, objs := fun _ => none, dom := [], freed := [] }

/-- Some live handle currently stores address p in its _ptr field. -/
def heldB (s : St) (p : Nat) : Bool :=
  s.dom.any fun i => ptrOf s i == p

/-- Handle id i is alive. -/
def liveB (s : St) (i : Nat) : Bool :=
  s.dom.contains i

/-- Address p can be returned by a fresh allocation: it is not stored in
any live handle and was never deleted. -/
def freshB (s : St) (p : Nat) : Bool :=
  !(heldB s p) && !(s.freed.contains p)

/-- Validity of one operation in one state (the conditions under which the
corresponding C++ statement has defined behaviour). -/
def okOp (s : St) : Op → Bool
  | .mkDefault => true
  | .mkRaw p => (p != 0) && freshB s p
  | .copy src => liveB s src
  | .reset0 i => liveB s i
  | .resetP i p => liveB s i && ((p == 0) || freshB s p)
  | .destroy i => liveB s i
  | .swap i j => liveB s i && liveB s j

/-- The state transformer of one operation. -/
def stepOp (s : St) : Op → St
  | .mkDefault => hMkRaw s 0
  | .mkRaw p => hMkRaw s p
  | .copy src => hCopy s src
  | .reset0 i => hReset0 s i
  | .resetP i p => hResetP s i p
  | .destroy i => hDestroy s i
  | .swap i j => hSwap s i j

/-- Run a list of operations (ignoring validity). -/
def exec (s : St) : List Op → St
  | [] => s
  | op :: rest => exec (stepOp s op) rest

/-- All operations of the trace are valid in the state they execute in. -/
def okRun (s : St) : List Op → Bool
  | [] => true
  | op :: rest => okOp s op && okRun (stepOp s op) rest

/-- The extra restriction on swap under which the ring exchange is
correct: the two handles hold the same resource (swap is then an early
no-op) or their two nodes agree on being singleton. -/
def swapOk (s : St) : Op → Bool
  | .swap i j => (ptrOf s i == ptrOf s j) || (uniqueAt s i == uniqueAt s j)
  | _ => true

/-- All operations of the trace are valid and every swap satisfies the
swapOk restriction. -/
def goodRun (s : St) : List Op → Bool
  | [] => true
  | op :: rest => okOp s op && swapOk s op && goodRun (stepOp s op) rest

/-- The non-null addresses whose ownership a trace transfers into the
handles (raw-pointer constructions and reset(new_reference)). -/
def installedOf : List Op → List Nat
  | [] => []
  | .mkRaw p :: rest => if p = 0 then installedOf rest else p :: installedOf rest
  | .resetP _ p :: rest => if p = 0 then installedOf rest else p :: installedOf rest
  | _ :: rest => installedOf rest

/-! ## Basic lemmas about the field accessors and updates -/

theorem ptrOf_eq {s : St} {i : Nat} {o : Obj} (h : s.objs i = some o) : ptrOf s i = o.ptr := by
  simp [ptrOf, h]

theorem leftOf_eq {s : St} {i : Nat} {o : Obj} (h : s.objs i = some o) : leftOf s i = o.left := by
  simp [leftOf, h]

theorem rightOf_eq {s : St} {i : Nat} {o : Obj} (h : s.objs i = some o) : rightOf s i = o.right := by
  simp [rightOf, h]

theorem objs_setLeft (s : St) (i v j : Nat) :
    (setLeft s i v).objs j =
      if j = i then (s.objs i).map (fun o => { o with left := v }) else s.objs j := by
  simp [setLeft, Function.update_apply]

theorem objs_setRight (s : St) (i v j : Nat) :
    (setRight s i v).objs j =
      if j = i then (s.objs i).map (fun o => { o with right := v }) else s.objs j := by
  simp [setRight, Function.update_apply]

theorem objs_setPtr (s : St) (i v j : Nat) :
    (setPtr s i v).objs j =
      if j = i then (s.objs i).map (fun o => { o with ptr := v }) else s.objs j := by
  simp [setPtr, Function.update_apply]

theorem isSome_setLeft (s : St) (i v j : Nat) :
    ((setLeft s i v).objs j).isSome = (s.objs j).isSome := by
  rw [objs_setLeft]
  by_cases hj : j = i
  · subst hj; cases s.objs j <;> simp
  · simp [hj]

theorem isSome_setRight (s : St) (i v j : Nat) :
    ((setRight s i v).objs j).isSome = (s.objs j).isSome := by
  rw [objs_setRight]
  by_cases hj : j = i
  · subst hj; cases s.objs j <;> simp
  · simp [hj]

theorem isSome_setPtr (s : St) (i v j : Nat) :
    ((setPtr s i v).objs j).isSome = (s.objs j).isSome := by
  rw [objs_setPtr]
  by_cases hj : j = i
  · subst hj; cases s.objs j <;> simp
  · simp [hj]

theorem ptrOf_setLeft (s : St) (i v j : Nat) : ptrOf (setLeft s i v) j = ptrOf s j := by
  unfold ptrOf; rw [objs_setLeft]
  by_cases hj : j = i
  · subst hj; cases s.objs j <;> simp
  · simp [hj]

theorem ptrOf_setRight (s : St) (i v j : Nat) : ptrOf (setRight s i v) j = ptrOf s j := by
  unfold ptrOf; rw [objs_setRight]
  by_cases hj : j = i
  · subst hj; cases s.objs j <;> simp
  · simp [hj]

theorem rightOf_setLeft (s : St) (i v j : Nat) : rightOf (setLeft s i v) j = rightOf s j := by
  unfold rightOf; rw [objs_setLeft]
  by_cases hj : j = i
  · subst hj; cases s.objs j <;> simp
  · simp [hj]

theorem leftOf_setRight (s : St) (i v j : Nat) : leftOf (setRight s i v) j = leftOf s j := by
  unfold leftOf; rw [objs_setRight]
  by_cases hj : j = i
  · subst hj; cases s.objs j <;> simp
  · simp [hj]

theorem leftOf_setPtr (s : St) (i v j : Nat) : leftOf (setPtr s i v) j = leftOf s j := by
  unfold leftOf; rw [objs_setPtr]
  by_cases hj : j = i
  · subst hj; cases s.objs j <;> simp
  · simp [hj]

theorem rightOf_setPtr (s : St) (i v j : Nat) : rightOf (setPtr s i v) j = rightOf s j := by
  unfold rightOf; rw [objs_setPtr]
  by_cases hj : j = i
  · subst hj; cases s.objs j <;> simp
  · simp [hj]

theorem leftOf_setLeft (s : St) (i v j : Nat) :
    leftOf (setLeft s i v) j = if j = i ∧ (s.objs i).isSome then v else leftOf s j := by
  unfold leftOf; rw [objs_setLeft]
  by_cases hj : j = i
  · subst hj; cases s.objs j <;> simp
  · simp [hj]

theorem rightOf_setRight (s : St) (i v j : Nat) :
    rightOf (setRight s i v) j = if j = i ∧ (s.objs i).isSome then v else rightOf s j := by
  unfold rightOf; rw [objs_setRight]
  by_cases hj : j = i
  · subst hj; cases s.objs j <;> simp
  · simp [hj]

theorem ptrOf_setPtr (s : St) (i v j : Nat) :
    ptrOf (setPtr s i v) j = if j = i ∧ (s.objs i).isSome then v else ptrOf s j := by
  unfold ptrOf; rw [objs_setPtr]
  by_cases hj : j = i
  · subst hj; cases s.objs j <;> simp
  · simp [hj]

theorem dom_setLeft (s : St) (i v : Nat) : (setLeft s i v).dom = s.dom := rfl

theorem dom_setRight (s : St) (i v : Nat) : (setRight s i v).dom = s.dom := rfl

theorem dom_setPtr (s : St) (i v : Nat) : (setPtr s i v).dom = s.dom := rfl

theorem freed_setLeft (s : St) (i v : Nat) : (setLeft s i v).freed = s.freed := rfl

theorem freed_setRight (s : St) (i v : Nat) : (setRight s i v).freed = s.freed := rfl

theorem freed_setPtr (s : St) (i v : Nat) : (setPtr s i v).freed = s.freed := rfl

theorem next_setLeft (s : St) (i v : Nat) : (setLeft s i v).next = s.next := rfl

theorem next_setRight (s : St) (i v : Nat) : (setRight s i v).next = s.next := rfl

theorem next_setPtr (s : St) (i v : Nat) : (setPtr s i v).next = s.next := rfl

/-! ## Rings as orbits of the right-neighbour map

A ring is the set of nodes reachable from a member by iterating the
_right pointer; on a well-formed arena this relation is reflexive,
transitive and (by a pigeonhole argument on the finite domain) symmetric. -/

/-- The right-neighbour map of a state. -/
def rightFun (s : St) : Nat → Nat := fun i => rightOf s i

/-- The left-neighbour map of a state. -/
def leftFun (s : St) : Nat → Nat := fun i => leftOf s i

/-- Node j lies on the ring of node i: it is reached from i by iterating
the _right pointer. -/
def reaches (s : St) (i j : Nat) : Prop := ∃ k, (rightFun s)^[k] i = j

theorem reaches_refl (s : St) (i : Nat) : reaches s i i := ⟨0, rfl⟩

theorem reaches_step {s : St} {i j : Nat} (h : rightOf s i = j) : reaches s i j :=
  ⟨1, h⟩

theorem reaches_trans {s : St} {i j k : Nat} (h1 : reaches s i j) (h2 : reaches s j k) :
    reaches s i k := by
  obtain ⟨m, hm⟩ := h1
  obtain ⟨n, hn⟩ := h2
  exact ⟨n + m, by rw [Function.iterate_add_apply, hm, hn]⟩

theorem reaches_snoc {s : St} {i j : Nat} (h : reaches s i j) :
    reaches s i (rightOf s j) := by
  obtain ⟨m, hm⟩ := h
  exact ⟨m + 1, by rw [Function.iterate_succ_apply', hm]; rfl⟩

theorem reaches_peel {s : St} {i j : Nat} (h : reaches s i j) :
    i = j ∨ reaches s (rightOf s i) j := by
  obtain ⟨m, hm⟩ := h
  cases m with
  | zero => exact Or.inl hm
  | succ m => exact Or.inr ⟨m, by rw [← hm, Function.iterate_succ_apply]; rfl⟩

theorem iter_mem {s : St} (hclosed : ∀ x ∈ s.dom, rightOf s x ∈ s.dom) {i : Nat}
    (hi : i ∈ s.dom) : ∀ k, (rightFun s)^[k] i ∈ s.dom := by
  intro k
  induction k with
  | zero => exact hi
  | succ k ih => rw [Function.iterate_succ_apply']; exact hclosed _ ih

theorem mem_of_reaches {s : St} (hclosed : ∀ x ∈ s.dom, rightOf s x ∈ s.dom) {i j : Nat}
    (hi : i ∈ s.dom) (h : reaches s i j) : j ∈ s.dom := by
  obtain ⟨k, hk⟩ := h
  exact hk ▸ iter_mem hclosed hi k

theorem ptrOf_reaches {s : St} (hclosed : ∀ x ∈ s.dom, rightOf s x ∈ s.dom)
    (hpr : ∀ x ∈ s.dom, ptrOf s (rightOf s x) = ptrOf s x) {i j : Nat}
    (hi : i ∈ s.dom) (h : reaches s i j) : ptrOf s j = ptrOf s i := by
  obtain ⟨k, hk⟩ := h
  subst hk
  induction k with
  | zero => rfl
  | succ k ih =>
    rw [Function.iterate_succ_apply']
    have hstep : ptrOf s (rightFun s ((rightFun s)^[k] i)) = ptrOf s ((rightFun s)^[k] i) :=
      hpr _ (iter_mem hclosed hi k)
    rw [hstep]
    exact ih

/-- Transport of reachability to a second state whose right-neighbour map
agrees on the domain of the first. -/
theorem reaches_congr {s s2 : St} (hclosed : ∀ x ∈ s.dom, rightOf s x ∈ s.dom)
    (hagree : ∀ x ∈ s.dom, rightOf s2 x = rightOf s x) {i j : Nat}
    (hi : i ∈ s.dom) (h : reaches s i j) : reaches s2 i j := by
  obtain ⟨k, hk⟩ := h
  subst hk
  induction k generalizing i with
  | zero => exact reaches_refl _ _
  | succ k ih =>
    rw [Function.iterate_succ_apply]
    have hstep : rightOf s2 i = rightOf s i := hagree i hi
    refine reaches_trans (reaches_step hstep) ?_
    exact ih (hclosed i hi)

theorem leftIter_rightIter {s : St} (hclosed : ∀ x ∈ s.dom, rightOf s x ∈ s.dom)
    (hlr : ∀ x ∈ s.dom, leftOf s (rightOf s x) = x) {i : Nat} (hi : i ∈ s.dom) :
    ∀ k, (leftFun s)^[k] ((rightFun s)^[k] i) = i := by
  intro k
  induction k with
  | zero => rfl
  | succ k ih =>
    rw [Function.iterate_succ_apply, Function.iterate_succ_apply']
    have hmem := iter_mem hclosed hi k
    have hstep : leftFun s (rightFun s ((rightFun s)^[k] i)) = (rightFun s)^[k] i := hlr _ hmem
    rw [hstep]
    exact ih

/-- Every live node returns to itself after a positive number of steps of
the right-neighbour map: rings are finite cycles. -/
theorem ring_closure {s : St}
    (hclosed : ∀ x ∈ s.dom, rightOf s x ∈ s.dom)
    (hlr : ∀ x ∈ s.dom, leftOf s (rightOf s x) = x) {i : Nat} (hi : i ∈ s.dom) :
    ∃ m, 0 < m ∧ (rightFun s)^[m] i = i := by
  have hmaps : ∀ a ∈ Finset.range (s.dom.length + 1),
      (rightFun s)^[a] i ∈ s.dom.toFinset := by
    intro a _
    simpa using iter_mem hclosed hi a
  have hcard : s.dom.toFinset.card < (Finset.range (s.dom.length + 1)).card := by
    rw [Finset.card_range]
    exact Nat.lt_succ_of_le (s.dom.toFinset_card_le)
  obtain ⟨x, hx, y, hy, hxy, hfeq⟩ :=
    Finset.exists_ne_map_eq_of_card_lt_of_maps_to hcard hmaps
  rcases Nat.lt_or_ge x y with hlt | hge
  · refine ⟨y - x, Nat.sub_pos_of_lt hlt, ?_⟩
    have hy' : (rightFun s)^[x] ((rightFun s)^[y - x] i) = (rightFun s)^[x] i := by
      rw [← Function.iterate_add_apply, Nat.add_sub_cancel' (Nat.le_of_lt hlt), hfeq]
    have := congrArg ((leftFun s)^[x]) hy'
    rwa [leftIter_rightIter hclosed hlr (iter_mem hclosed hi (y - x)) x,
      leftIter_rightIter hclosed hlr hi x] at this
  · have hlt : y < x := Nat.lt_of_le_of_ne hge (fun h => hxy h.symm)
    refine ⟨x - y, Nat.sub_pos_of_lt hlt, ?_⟩
    have hx' : (rightFun s)^[y] ((rightFun s)^[x - y] i) = (rightFun s)^[y] i := by
      rw [← Function.iterate_add_apply, Nat.add_sub_cancel' (Nat.le_of_lt hlt), ← hfeq]
    have := congrArg ((leftFun s)^[y]) hx'
    rwa [leftIter_rightIter hclosed hlr (iter_mem hclosed hi (x - y)) y,
      leftIter_rightIter hclosed hlr hi y] at this

/-- On a well-formed arena reachability is symmetric: going far enough
around the cycle comes back. -/
theorem reaches_symm {s : St}
    (hclosed : ∀ x ∈ s.dom, rightOf s x ∈ s.dom)
    (hlr : ∀ x ∈ s.dom, leftOf s (rightOf s x) = x) {i j : Nat} (hi : i ∈ s.dom)
    (h : reaches s i j) : reaches s j i := by
  obtain ⟨k, hk⟩ := h
  obtain ⟨m, hm0, hm⟩ := ring_closure hclosed hlr hi
  have hlek : k ≤ m * (k + 1) := by
    calc k ≤ k + 1 := Nat.le_succ k
    _ ≤ m * (k + 1) := Nat.le_mul_of_pos_left _ hm0
  have hNfix : (rightFun s)^[m * (k + 1)] i = i := by
    rw [Function.iterate_mul]
    exact Function.iterate_fixed hm (k + 1)
  refine ⟨m * (k + 1) - k, ?_⟩
  rw [← hk, ← Function.iterate_add_apply, Nat.sub_add_cancel hlek, hNfix]

/-! ## Characterisation of the ring operations -/

theorem uniqueAt_iff {s : St} {i : Nat} :
    uniqueAt s i = true ↔ leftOf s i = i ∧ rightOf s i = i := by
  simp [uniqueAt]

theorem uniqueAt_false_of_left {s : St} {i : Nat} (h : leftOf s i ≠ i) :
    uniqueAt s i = false := by
  simp [uniqueAt, h]

theorem uniqueAt_false_of_right {s : St} {i : Nat} (h : rightOf s i ≠ i) :
    uniqueAt s i = false := by
  simp [uniqueAt, h]

theorem erase_next (s : St) (i : Nat) : (eraseNode s i).next = s.next := rfl

theorem erase_dom (s : St) (i : Nat) : (eraseNode s i).dom = s.dom := rfl

theorem erase_freed (s : St) (i : Nat) : (eraseNode s i).freed = s.freed := rfl

theorem erase_isSome (s : St) (i x : Nat) :
    ((eraseNode s i).objs x).isSome = (s.objs x).isSome := by
  unfold eraseNode
  simp only [isSome_setLeft, isSome_setRight]

theorem erase_ptrOf (s : St) (i x : Nat) : ptrOf (eraseNode s i) x = ptrOf s x := by
  unfold eraseNode
  simp only [ptrOf_setLeft, ptrOf_setRight]

theorem erase_rightOf {s : St} {i : Nat} (hio : (s.objs i).isSome)
    (hl : (s.objs (leftOf s i)).isSome) (x : Nat) :
    rightOf (eraseNode s i) x =
      if x = i then i else if x = leftOf s i then rightOf s i else rightOf s x := by
  unfold eraseNode
  simp only [rightOf_setLeft, rightOf_setRight, leftOf_setLeft, isSome_setLeft,
    isSome_setRight, hio, hl, and_true, ite_self]

theorem erase_leftOf {s : St} {i : Nat} (hio : (s.objs i).isSome)
    (hr : (s.objs (rightOf s i)).isSome) (x : Nat) :
    leftOf (eraseNode s i) x =
      if x = i then i else if x = rightOf s i then leftOf s i else leftOf s x := by
  unfold eraseNode
  simp only [leftOf_setLeft, leftOf_setRight, rightOf_setLeft, isSome_setLeft,
    isSome_setRight, hio, hr, and_true, ite_self]

theorem ins_next (s : St) (n t : Nat) : (insertAfter s n t).next = s.next := rfl

theorem ins_dom (s : St) (n t : Nat) : (insertAfter s n t).dom = s.dom := rfl

theorem ins_freed (s : St) (n t : Nat) : (insertAfter s n t).freed = s.freed := rfl

theorem ins_isSome (s : St) (n t x : Nat) :
    ((insertAfter s n t).objs x).isSome = (s.objs x).isSome := by
  unfold insertAfter
  simp only [isSome_setLeft, isSome_setRight]

theorem ins_ptrOf (s : St) (n t x : Nat) : ptrOf (insertAfter s n t) x = ptrOf s x := by
  unfold insertAfter
  simp only [ptrOf_setLeft, ptrOf_setRight]

theorem ins_rightOf {s : St} {n t : Nat} (hn : (s.objs n).isSome)
    (ht : (s.objs t).isSome) (x : Nat) :
    rightOf (insertAfter s n t) x =
      if x = t then n else if x = n then rightOf s t else rightOf s x := by
  unfold insertAfter
  simp only [rightOf_setLeft, rightOf_setRight, isSome_setLeft, isSome_setRight,
    hn, ht, and_true, if_pos rfl]

theorem ins_leftOf {s : St} {n t : Nat} (hn : (s.objs n).isSome)
    (hrt : (s.objs (rightOf s t)).isSome) (x : Nat) :
    leftOf (insertAfter s n t) x =
      if x = n then t else if x = rightOf s t then n else leftOf s x := by
  unfold insertAfter
  simp only [leftOf_setLeft, leftOf_setRight, rightOf_setLeft, rightOf_setRight,
    isSome_setLeft, isSome_setRight, hn, hrt, and_true, if_pos rfl,
    eq_self_iff_true, if_true]

theorem baseSwap_of_unique {s : St} {a b : Nat} (hua : uniqueAt s a = true)
    (hub : uniqueAt s b = true) : baseSwap s a b = s := by
  unfold baseSwap
  simp [hua, hub]

theorem baseSwap_ptrOf (s : St) (a b x : Nat) : ptrOf (baseSwap s a b) x = ptrOf s x := by
  unfold baseSwap
  simp only [apply_ite (fun st : St => ptrOf st x), ptrOf_setLeft, ptrOf_setRight, ite_self]

theorem baseSwap_isSome (s : St) (a b x : Nat) :
    ((baseSwap s a b).objs x).isSome = (s.objs x).isSome := by
  unfold baseSwap
  simp only [apply_ite (fun st : St => (st.objs x).isSome), isSome_setLeft, isSome_setRight, ite_self]

theorem baseSwap_next (s : St) (a b : Nat) : (baseSwap s a b).next = s.next := by
  unfold baseSwap
  simp only [apply_ite (fun st : St => st.next), next_setLeft, next_setRight, ite_self]

theorem baseSwap_dom (s : St) (a b : Nat) : (baseSwap s a b).dom = s.dom := by
  unfold baseSwap
  simp only [apply_ite (fun st : St => st.dom), dom_setLeft, dom_setRight, ite_self]

theorem baseSwap_freed (s : St) (a b : Nat) : (baseSwap s a b).freed = s.freed := by
  unfold baseSwap
  simp only [apply_ite (fun st : St => st.freed), freed_setLeft, freed_setRight, ite_self]

/-- Right-neighbour fields after a base swap of two non-singleton nodes of
disjoint rings: a and b exchange right-neighbours, and the left-neighbours
of the two (now-exchanged) positions are repointed. -/
theorem baseSwap_rightOf {s : St} {a b : Nat}
    (hao : (s.objs a).isSome) (hbo : (s.objs b).isSome)
    (hla : (s.objs (leftOf s a)).isSome) (hra : (s.objs (rightOf s a)).isSome)
    (hlb : (s.objs (leftOf s b)).isSome) (hrb : (s.objs (rightOf s b)).isSome)
    (hlaa : leftOf s a ≠ a) (hraa : rightOf s a ≠ a)
    (hlbb : leftOf s b ≠ b) (hrbb : rightOf s b ≠ b)
    (hab : a ≠ b)
    (hlab : leftOf s a ≠ b) (hrab : rightOf s a ≠ b)
    (hlba : leftOf s b ≠ a) (hrba : rightOf s b ≠ a)
    (hll : leftOf s a ≠ leftOf s b) (hrr : rightOf s a ≠ rightOf s b) (x : Nat) :
    rightOf (baseSwap s a b) x =
      if x = leftOf s a then b else if x = leftOf s b then a
      else if x = b then rightOf s a else if x = a then rightOf s b
      else rightOf s x := by
  have hguard : (uniqueAt s a && uniqueAt s b) = false := by
    rw [uniqueAt_false_of_left hlaa, Bool.false_and]
  simp only [baseSwap, hguard, Bool.false_eq_true, if_false, uniqueAt,
    leftOf_setLeft, leftOf_setRight, rightOf_setLeft, rightOf_setRight,
    isSome_setLeft, isSome_setRight,
    hao, hbo, hla, hra, hlb, hrb, and_true, and_self, eq_self_iff_true, if_true,
    beq_iff_eq, Bool.and_eq_true,
    hlaa, hraa, hlbb, hrbb, hab, hlab, hrab, hlba, hrba, hll, hrr,
    Ne.symm hab, Ne.symm hlab, Ne.symm hrab, Ne.symm hlba, Ne.symm hrba,
    Ne.symm hll, Ne.symm hrr, Ne.symm hlaa, Ne.symm hraa, Ne.symm hlbb, Ne.symm hrbb,
    if_false, false_and, and_false]

/-- Left-neighbour fields after a base swap of two non-singleton nodes of
disjoint rings. -/
theorem baseSwap_leftOf {s : St} {a b : Nat}
    (hao : (s.objs a).isSome) (hbo : (s.objs b).isSome)
    (hla : (s.objs (leftOf s a)).isSome) (hra : (s.objs (rightOf s a)).isSome)
    (hlb : (s.objs (leftOf s b)).isSome) (hrb : (s.objs (rightOf s b)).isSome)
    (hlaa : leftOf s a ≠ a) (hraa : rightOf s a ≠ a)
    (hlbb : leftOf s b ≠ b) (hrbb : rightOf s b ≠ b)
    (hab : a ≠ b)
    (hlab : leftOf s a ≠ b) (hrab : rightOf s a ≠ b)
    (hlba : leftOf s b ≠ a) (hrba : rightOf s b ≠ a)
    (hll : leftOf s a ≠ leftOf s b) (hrr : rightOf s a ≠ rightOf s b) (x : Nat) :
    leftOf (baseSwap s a b) x =
      if x = rightOf s a then b else if x = rightOf s b then a
      else if x = b then leftOf s a else if x = a then leftOf s b
      else leftOf s x := by
  have hguard : (uniqueAt s a && uniqueAt s b) = false := by
    rw [uniqueAt_false_of_left hlaa, Bool.false_and]
  simp only [baseSwap, hguard, Bool.false_eq_true, if_false, uniqueAt,
    leftOf_setLeft, leftOf_setRight, rightOf_setLeft, rightOf_setRight,
    isSome_setLeft, isSome_setRight,
    hao, hbo, hla, hra, hlb, hrb, and_true, and_self, eq_self_iff_true, if_true,
    beq_iff_eq, Bool.and_eq_true,
    hlaa, hraa, hlbb, hrbb, hab, hlab, hrab, hlba, hrba, hll, hrr,
    Ne.symm hab, Ne.symm hlab, Ne.symm hrab, Ne.symm hlba, Ne.symm hrba,
    Ne.symm hll, Ne.symm hrr, Ne.symm hlaa, Ne.symm hraa, Ne.symm hlbb, Ne.symm hrbb,
    if_false, false_and, and_false]

/-! ## Accessor lemmas for allocation and the pointer-field write -/

theorem objs_alloc (s : St) (o : Obj) (j : Nat) :
    (alloc s o).objs j = if j = s.next then some o else s.objs j := by
  simp [alloc, Function.update_apply]

theorem ptrOf_alloc (s : St) (o : Obj) (j : Nat) :
    ptrOf (alloc s o) j = if j = s.next then o.ptr else ptrOf s j := by
  unfold ptrOf; rw [objs_alloc]; split <;> simp

theorem leftOf_alloc (s : St) (o : Obj) (j : Nat) :
    leftOf (alloc s o) j = if j = s.next then o.left else leftOf s j := by
  unfold leftOf; rw [objs_alloc]; split <;> simp

theorem rightOf_alloc (s : St) (o : Obj) (j : Nat) :
    rightOf (alloc s o) j = if j = s.next then o.right else rightOf s j := by
  unfold rightOf; rw [objs_alloc]; split <;> simp

theorem isSome_alloc (s : St) (o : Obj) (j : Nat) :
    ((alloc s o).objs j).isSome = if j = s.next then true else (s.objs j).isSome := by
  rw [objs_alloc]; split <;> simp

theorem rightFun_setPtr (s : St) (i v : Nat) : rightFun (setPtr s i v) = rightFun s :=
  funext fun x => rightOf_setPtr s i v x

theorem reaches_setPtr (s : St) (i v x y : Nat) :
    reaches (setPtr s i v) x y ↔ reaches s x y := by
  unfold reaches; rw [rightFun_setPtr]

/-- The transposition of two arena ids, describing how swap relabels a
ring membership. -/
def transp (a b x : Nat) : Nat :=
  if x = a then b else if x = b then a else x

theorem transp_invol (a b x : Nat) : transp a b (transp a b x) = x := by
  unfold transp
  by_cases hxa : x = a
  · by_cases hab : b = a <;> simp [hxa, hab]
  · by_cases hxb : x = b
    · simp [hxa, hxb]
    · simp [hxa, hxb]

theorem transp_left (a b : Nat) : transp a b a = b := by simp [transp]

theorem transp_right (a b : Nat) : transp a b b = a := by
  unfold transp
  by_cases hab : b = a <;> simp [hab]

theorem transp_other {a b x : Nat} (hxa : x ≠ a) (hxb : x ≠ b) : transp a b x = x := by
  simp [transp, hxa, hxb]

/-! ## Lifting reachability through the ring operations -/

/-- Lifting a reachability path through a splice: in the new state the old
step out of src is replaced by two steps through the new node n. -/
theorem reaches_insert_lift {s sp : St} {src n : Nat}
    (W1m : ∀ z ∈ s.dom, rightOf s z ∈ s.dom)
    (hchar : ∀ z ∈ s.dom, rightOf sp z = if z = src then n else rightOf s z)
    (hn : rightOf sp n = rightOf s src) {x y : Nat} (hx : x ∈ s.dom)
    (h : reaches s x y) : reaches sp x y := by
  suffices haux : ∀ k x, x ∈ s.dom → (rightFun s)^[k] x = y → reaches sp x y by
    obtain ⟨k, hk⟩ := h
    exact haux k x hx hk
  intro k
  induction k with
  | zero =>
    intro x _ hk
    exact hk ▸ reaches_refl _ _
  | succ k ih =>
    intro x hx hk
    have hk2 : (rightFun s)^[k] (rightOf s x) = y := by
      rw [← hk, Function.iterate_succ_apply]; rfl
    have hmem : rightOf s x ∈ s.dom := W1m x hx
    have htail : reaches sp (rightOf s x) y := ih _ hmem hk2
    by_cases hxs : x = src
    · subst hxs
      have h1 : rightOf sp x = n := by rw [hchar x hx]; simp
      exact reaches_trans (reaches_step h1) (reaches_trans (reaches_step hn) htail)
    · have h1 : rightOf sp x = rightOf s x := by rw [hchar x hx]; simp [hxs]
      exact reaches_trans (reaches_step h1) htail

/-- Lifting a reachability path through an erase: paths between survivors
skip the erased node. -/
theorem reaches_erase_lift {s sp : St} {i : Nat}
    (W1m : ∀ z ∈ s.dom, rightOf s z ∈ s.dom)
    (W1l : ∀ z ∈ s.dom, leftOf s (rightOf s z) = z)
    (hrl : rightOf s (leftOf s i) = i)
    (hi : i ∈ s.dom)
    (hchar : ∀ z ∈ s.dom, z ≠ i →
      rightOf sp z = if z = leftOf s i then rightOf s i else rightOf s z)
    {x y : Nat} (hx : x ∈ s.dom) (hxi : x ≠ i) (hyi : y ≠ i)
    (h : reaches s x y) : reaches sp x y := by
  suffices haux : ∀ k x, x ∈ s.dom → x ≠ i → (rightFun s)^[k] x = y → reaches sp x y by
    obtain ⟨k, hk⟩ := h
    exact haux k x hx hxi hk
  intro k
  induction k using Nat.strong_induction_on with
  | _ k IH =>
    intro x hx hxi hk
    match k, hk with
    | 0, hk =>
      exact hk ▸ reaches_refl _ _
    | Nat.succ k, hk =>
      have hk2 : (rightFun s)^[k] (rightOf s x) = y := by
        rw [← hk, Function.iterate_succ_apply]; rfl
      by_cases hz : rightOf s x = i
      · have hxl : x = leftOf s i := by rw [← hz]; exact (W1l x hx).symm
        match k, hk2 with
        | 0, hk2 =>
          exfalso
          have hyx : rightOf s x = y := hk2
          exact hyi (by rw [← hyx, hz])
        | Nat.succ k, hk2 =>
          have hk3 : (rightFun s)^[k] (rightOf s i) = y := by
            rw [← hk2, Function.iterate_succ_apply, hz]; rfl
          have hrmem : rightOf s i ∈ s.dom := W1m i hi
          by_cases hri : rightOf s i = i
          · exfalso
            have hfix : (rightFun s)^[k] (rightOf s i) = i := by
              rw [hri]
              exact Function.iterate_fixed hri k
            exact hyi (by rw [← hk3, hfix])
          · have hstep : rightOf sp x = rightOf s i := by
              rw [hchar x hx hxi, if_pos hxl]
            exact reaches_trans (reaches_step hstep)
              (IH k (by omega) _ hrmem hri hk3)
      · have hxl : x ≠ leftOf s i := fun hcon => hz (by rw [hcon, hrl])
        have hstep : rightOf sp x = rightOf s x := by
          rw [hchar x hx hxi, if_neg hxl]
        exact reaches_trans (reaches_step hstep)
          (IH k (by omega) _ (W1m x hx) hz hk2)

/-- Lifting a reachability path through a relabelling of two nodes (the
effect of a well-formed swap). -/
theorem reaches_relabel {s sp : St} {a b : Nat}
    (W1m : ∀ z ∈ s.dom, rightOf s z ∈ s.dom)
    (hchar : ∀ z ∈ s.dom, rightOf sp (transp a b z) = transp a b (rightOf s z))
    {x y : Nat} (hx : x ∈ s.dom) (h : reaches s x y) :
    reaches sp (transp a b x) (transp a b y) := by
  suffices haux : ∀ k x, x ∈ s.dom → (rightFun s)^[k] x = y →
      reaches sp (transp a b x) (transp a b y) by
    obtain ⟨k, hk⟩ := h
    exact haux k x hx hk
  intro k
  induction k with
  | zero =>
    intro x _ hk
    exact hk ▸ reaches_refl _ _
  | succ k ih =>
    intro x hx hk
    have hk2 : (rightFun s)^[k] (rightOf s x) = y := by
      rw [← hk, Function.iterate_succ_apply]; rfl
    have hstep : rightOf sp (transp a b x) = transp a b (rightOf s x) := hchar x hx
    exact reaches_trans (reaches_step hstep) (ih _ (W1m x hx) hk2)

/-! ## The global invariant of reachable states

All facts that hold in every state a well-defined trace of handle
operations can produce, relative to the list inst of non-null addresses
whose ownership was transferred into handles so far. -/

structure Inv (inst : List Nat) (s : St) : Prop where
  dom_nodup : s.dom.Nodup
  dom_lt : ∀ i ∈ s.dom, i < s.next
  objs_dom : ∀ i, (s.objs i).isSome = true ↔ i ∈ s.dom
  right_mem : ∀ i ∈ s.dom, rightOf s i ∈ s.dom
  left_mem : ∀ i ∈ s.dom, leftOf s i ∈ s.dom
  left_right : ∀ i ∈ s.dom, leftOf s (rightOf s i) = i
  right_left : ∀ i ∈ s.dom, rightOf s (leftOf s i) = i
  ptr_right : ∀ i ∈ s.dom, ptrOf s (rightOf s i) = ptrOf s i
  same_ring : ∀ i ∈ s.dom, ∀ j ∈ s.dom, ptrOf s i ≠ 0 → ptrOf s i = ptrOf s j →
    reaches s i j
  held_not_freed : ∀ i ∈ s.dom, ptrOf s i ≠ 0 → ptrOf s i ∉ s.freed
  freed_nodup : s.freed.Nodup
  freed_iff : ∀ p, p ≠ 0 → (p ∈ s.freed ↔ p ∈ inst ∧ ∀ i ∈ s.dom, ptrOf s i ≠ p)
  held_inst : ∀ i ∈ s.dom, ptrOf s i ≠ 0 → ptrOf s i ∈ inst

theorem Inv.isSome {inst : List Nat} {s : St} (h : Inv inst s) {i : Nat}
    (hi : i ∈ s.dom) : (s.objs i).isSome = true :=
  (h.objs_dom i).mpr hi

/-- The invariant holds in the empty initial state. -/
theorem Inv_init : Inv [] init := by
  constructor <;> simp [init, reaches]

/-- A unique node with a non-null resource is its sole live holder. -/
theorem Inv.unique_sole {inst : List Nat} {s : St} (h : Inv inst s) {i : Nat}
    (hi : i ∈ s.dom) (hu : uniqueAt s i = true) (hp : ptrOf s i ≠ 0) :
    ∀ j ∈ s.dom, ptrOf s j = ptrOf s i → j = i := by
  intro j hj hpj
  have hr := h.same_ring i hi j hj hp hpj.symm
  obtain ⟨k, hk⟩ := hr
  have hfix : rightFun s i = i := (uniqueAt_iff.mp hu).2
  rw [Function.iterate_fixed hfix k] at hk
  exact hk.symm

/-- A non-unique live node has both neighbours distinct from itself. -/
theorem Inv.nonunique_partner {inst : List Nat} {s : St} (h : Inv inst s) {i : Nat}
    (hi : i ∈ s.dom) (hu : uniqueAt s i = false) :
    leftOf s i ≠ i ∧ rightOf s i ≠ i := by
  have hnu : ¬(leftOf s i = i ∧ rightOf s i = i) := by
    intro hcon
    rw [uniqueAt_iff.mpr hcon] at hu
    exact Bool.true_eq_false.mp hu
  constructor
  · intro hl
    have hr : rightOf s i = i := by
      have h2 := h.right_left i hi
      rwa [hl] at h2
    exact hnu ⟨hl, hr⟩
  · intro hr
    have hl : leftOf s i = i := by
      have h2 := h.left_right i hi
      rwa [hr] at h2
    exact hnu ⟨hl, hr⟩

/-! ## Preservation of the invariant by each handle operation -/

/-- Constructing a handle from a fresh raw pointer (or the default
constructor, p = 0) preserves the invariant. -/
theorem Inv_mkRaw {inst : List Nat} {s : St} (h : Inv inst s) {p : Nat}
    (hfresh : p = 0 ∨ (p ∉ s.freed ∧ ∀ i ∈ s.dom, ptrOf s i ≠ p)) :
    Inv (inst ++ if p = 0 then [] else [p]) (hMkRaw s p) := by
  have hnd : s.next ∉ s.dom := fun hmem => absurd (h.dom_lt _ hmem) (lt_irrefl _)
  have hne : ∀ {j : Nat}, j ∈ s.dom → ¬(j = s.next) := fun hj hc => hnd (hc ▸ hj)
  have hP : ∀ j, ptrOf (hMkRaw s p) j = if j = s.next then p else ptrOf s j :=
    fun j => ptrOf_alloc s _ j
  have hL : ∀ j, leftOf (hMkRaw s p) j = if j = s.next then s.next else leftOf s j :=
    fun j => leftOf_alloc s _ j
  have hR : ∀ j, rightOf (hMkRaw s p) j = if j = s.next then s.next else rightOf s j :=
    fun j => rightOf_alloc s _ j
  have hS : ∀ j, ((hMkRaw s p).objs j).isSome =
      if j = s.next then true else (s.objs j).isSome := fun j => isSome_alloc s _ j
  have hdom : (hMkRaw s p).dom = s.next :: s.dom := rfl
  have hfr : (hMkRaw s p).freed = s.freed := rfl
  have hRold : ∀ j ∈ s.dom, rightOf (hMkRaw s p) j = rightOf s j := by
    intro j hj
    rw [hR, if_neg (hne hj)]
  have hPold : ∀ j ∈ s.dom, ptrOf (hMkRaw s p) j = ptrOf s j := by
    intro j hj
    rw [hP, if_neg (hne hj)]
  have hLold : ∀ j ∈ s.dom, leftOf (hMkRaw s p) j = leftOf s j := by
    intro j hj
    rw [hL, if_neg (hne hj)]
  constructor
  · rw [hdom]
    exact List.nodup_cons.mpr ⟨hnd, h.dom_nodup⟩
  · intro i hi
    rw [hdom] at hi
    show i < s.next + 1
    rcases List.mem_cons.mp hi with hi | hi
    · omega
    · have := h.dom_lt i hi; omega
  · intro i
    rw [hS, hdom]
    by_cases hin : i = s.next
    · simp [hin]
    · simp only [hin, if_false, List.mem_cons, false_or]
      exact h.objs_dom i
  · intro i hi
    rw [hdom] at hi ⊢
    rcases List.mem_cons.mp hi with hi | hi
    · rw [hR, if_pos hi]
      exact List.mem_cons_self _ _
    · rw [hRold i hi]
      exact List.mem_cons_of_mem _ (h.right_mem i hi)
  · intro i hi
    rw [hdom] at hi ⊢
    rcases List.mem_cons.mp hi with hi | hi
    · rw [hL, if_pos hi]
      exact List.mem_cons_self _ _
    · rw [hLold i hi]
      exact List.mem_cons_of_mem _ (h.left_mem i hi)
  · intro i hi
    rw [hdom] at hi
    rcases List.mem_cons.mp hi with hi | hi
    · subst hi
      rw [hR, if_pos rfl, hL, if_pos rfl]
    · rw [hRold i hi, hL, if_neg (hne (h.right_mem i hi))]
      exact h.left_right i hi
  · intro i hi
    rw [hdom] at hi
    rcases List.mem_cons.mp hi with hi | hi
    · subst hi
      rw [hL, if_pos rfl, hR, if_pos rfl]
    · rw [hLold i hi, hR, if_neg (hne (h.left_mem i hi))]
      exact h.right_left i hi
  · intro i hi
    rw [hdom] at hi
    rcases List.mem_cons.mp hi with hi | hi
    · subst hi
      rw [hR, if_pos rfl]
    · rw [hRold i hi, hPold i hi, hPold _ (h.right_mem i hi)]
      exact h.ptr_right i hi
  · intro i hi j hj hpi hpij
    rw [hdom] at hi hj
    rcases List.mem_cons.mp hi with hi | hi <;> rcases List.mem_cons.mp hj with hj | hj
    · subst hi; subst hj
      exact reaches_refl _ _
    · exfalso
      subst hi
      rw [hP, if_pos rfl] at hpi hpij
      rcases hfresh with h0 | ⟨_, hnh⟩
      · exact hpi h0
      · exact hnh j hj (hpij.trans (hPold j hj)).symm
    · exfalso
      subst hj
      rw [hPold i hi] at hpi hpij
      rw [hP, if_pos rfl] at hpij
      rcases hfresh with h0 | ⟨_, hnh⟩
      · exact hpi (hpij.trans h0)
      · exact hnh i hi hpij
    · rw [hPold i hi] at hpi hpij
      rw [hPold j hj] at hpij
      exact reaches_congr h.right_mem hRold hi (h.same_ring i hi j hj hpi hpij)
  · intro i hi hpi
    rw [hdom] at hi
    rw [hfr]
    rcases List.mem_cons.mp hi with hi | hi
    · subst hi
      rw [hP, if_pos rfl] at hpi ⊢
      rcases hfresh with h0 | ⟨hnf, _⟩
      · exact absurd h0 hpi
      · exact hnf
    · rw [hPold i hi] at hpi ⊢
      exact h.held_not_freed i hi hpi
  · rw [hfr]
    exact h.freed_nodup
  · intro q hq
    rw [hfr, hdom]
    by_cases hp0 : p = 0
    · subst hp0
      simp only [eq_self_iff_true, if_true, List.append_nil]
      rw [h.freed_iff q hq]
      constructor
      · rintro ⟨hqi, hall⟩
        refine ⟨hqi, ?_⟩
        intro i hi
        rcases List.mem_cons.mp hi with hi | hi
        · subst hi
          rw [hP, if_pos rfl]
          exact fun hc => hq hc.symm
        · rw [hPold i hi]
          exact hall i hi
      · rintro ⟨hqi, hall⟩
        refine ⟨hqi, ?_⟩
        intro i hi
        have hrec := hall i (List.mem_cons_of_mem _ hi)
        rwa [hPold i hi] at hrec
    · simp only [if_neg hp0]
      by_cases hqp : q = p
      · subst hqp
        rcases hfresh with h0 | ⟨hnf, _⟩
        · exact absurd h0 hp0
        · constructor
          · intro hc; exact absurd hc hnf
          · rintro ⟨_, hall⟩
            exfalso
            have hcon := hall s.next (List.mem_cons_self _ _)
            rw [hP, if_pos rfl] at hcon
            exact hcon rfl
      · rw [h.freed_iff q hq]
        have hmem : q ∈ inst ++ [p] ↔ q ∈ inst := by
          simp [hqp]
        rw [hmem]
        constructor
        · rintro ⟨hqi, hall⟩
          refine ⟨hqi, ?_⟩
          intro i hi
          rcases List.mem_cons.mp hi with hi | hi
          · subst hi
            rw [hP, if_pos rfl]
            exact fun hc => hqp hc.symm
          · rw [hPold i hi]
            exact hall i hi
        · rintro ⟨hqi, hall⟩
          refine ⟨hqi, ?_⟩
          intro i hi
          have hrec := hall i (List.mem_cons_of_mem _ hi)
          rwa [hPold i hi] at hrec
  · intro i hi hpi
    rw [hdom] at hi
    rcases List.mem_cons.mp hi with hi | hi
    · subst hi
      rw [hP, if_pos rfl] at hpi ⊢
      have hp0 : ¬(p = 0) := hpi
      simp [hp0]
    · rw [hPold i hi] at hpi ⊢
      exact List.mem_append_left _ (h.held_inst i hi hpi)

/-- Copy construction from a live handle preserves the invariant: the new
node is spliced into the source ring and shares its resource. -/
theorem Inv_copy {inst : List Nat} {s : St} (h : Inv inst s) {src : Nat}
    (hsrc : src ∈ s.dom) : Inv inst (hCopy s src) := by
  have hne : ∀ {j : Nat}, j ∈ s.dom → ¬(j = s.next) :=
    fun hj hc => absurd (h.dom_lt _ (hc ▸ hj)) (lt_irrefl _)
  have hsrcn : ¬(src = s.next) := hne hsrc
  have hSsrc : (s.objs src).isSome = true := h.isSome hsrc
  have hrt : rightOf s src ∈ s.dom := h.right_mem src hsrc
  have hrtn : ¬(rightOf s src = s.next) := hne hrt
  have hSrt : (s.objs (rightOf s src)).isSome = true := h.isSome hrt
  have hA1 : ((alloc s ⟨0, s.next, s.next⟩).objs s.next).isSome = true := by
    rw [isSome_alloc]; simp
  have hA2 : ((alloc s ⟨0, s.next, s.next⟩).objs src).isSome = true := by
    rw [isSome_alloc, if_neg hsrcn]; exact hSsrc
  have hA3 : rightOf (alloc s ⟨0, s.next, s.next⟩) src = rightOf s src := by
    rw [rightOf_alloc, if_neg hsrcn]
  have hA4 : ((alloc s ⟨0, s.next, s.next⟩).objs
      (rightOf (alloc s ⟨0, s.next, s.next⟩) src)).isSome = true := by
    rw [hA3, isSome_alloc, if_neg hrtn]; exact hSrt
  have hR : ∀ j, rightOf (hCopy s src) j =
      if j = src then s.next else if j = s.next then rightOf s src else rightOf s j := by
    intro j
    show rightOf (setPtr (insertAfter (alloc s ⟨0, s.next, s.next⟩) s.next src) s.next
      (ptrOf (insertAfter (alloc s ⟨0, s.next, s.next⟩) s.next src) src)) j = _
    rw [rightOf_setPtr, ins_rightOf hA1 hA2, hA3, rightOf_alloc]
    by_cases h1 : j = src
    · simp [h1]
    · by_cases h2 : j = s.next <;> simp [h1, h2]
  have hL : ∀ j, leftOf (hCopy s src) j =
      if j = s.next then src else if j = rightOf s src then s.next else leftOf s j := by
    intro j
    show leftOf (setPtr (insertAfter (alloc s ⟨0, s.next, s.next⟩) s.next src) s.next
      (ptrOf (insertAfter (alloc s ⟨0, s.next, s.next⟩) s.next src) src)) j = _
    rw [leftOf_setPtr, ins_leftOf hA1 hA4, hA3, leftOf_alloc]
    by_cases h1 : j = s.next
    · simp [h1]
    · by_cases h2 : j = rightOf s src <;> simp [h1, h2]
  have hP : ∀ j, ptrOf (hCopy s src) j =
      if j = s.next then ptrOf s src else ptrOf s j := by
    intro j
    show ptrOf (setPtr (insertAfter (alloc s ⟨0, s.next, s.next⟩) s.next src) s.next
      (ptrOf (insertAfter (alloc s ⟨0, s.next, s.next⟩) s.next src) src)) j = _
    have hps : ptrOf (insertAfter (alloc s ⟨0, s.next, s.next⟩) s.next src) src
        = ptrOf s src := by
      rw [ins_ptrOf, ptrOf_alloc, if_neg hsrcn]
    have hisS : ((insertAfter (alloc s ⟨0, s.next, s.next⟩) s.next src).objs
        s.next).isSome = true := by
      rw [ins_isSome]; exact hA1
    rw [ptrOf_setPtr]
    by_cases h1 : j = s.next
    · rw [if_pos ⟨h1, hisS⟩, hps, if_pos h1]
    · rw [if_neg (fun hc => h1 hc.1), ins_ptrOf, ptrOf_alloc, if_neg h1, if_neg h1]
  have hS : ∀ j, ((hCopy s src).objs j).isSome =
      if j = s.next then true else (s.objs j).isSome := by
    intro j
    show ((setPtr (insertAfter (alloc s ⟨0, s.next, s.next⟩) s.next src) s.next
      (ptrOf (insertAfter (alloc s ⟨0, s.next, s.next⟩) s.next src) src)).objs j).isSome = _
    rw [isSome_setPtr, ins_isSome, isSome_alloc]
  have hdom : (hCopy s src).dom = s.next :: s.dom := rfl
  have hfr : (hCopy s src).freed = s.freed := rfl
  have hRold : ∀ j ∈ s.dom, rightOf (hCopy s src) j =
      if j = src then s.next else rightOf s j := by
    intro j hj
    rw [hR]
    by_cases h1 : j = src
    · simp [h1]
    · simp [h1, hne hj]
  have hPold : ∀ j ∈ s.dom, ptrOf (hCopy s src) j = ptrOf s j := by
    intro j hj
    rw [hP, if_neg (hne hj)]
  have hnsrc : ¬(s.next = src) := fun hc => hsrcn hc.symm
  have hnstep : rightOf (hCopy s src) s.next = rightOf s src := by
    rw [hR, if_neg hnsrc, if_pos rfl]
  have hlift : ∀ {x y : Nat}, x ∈ s.dom → reaches s x y → reaches (hCopy s src) x y :=
    fun hx hr => reaches_insert_lift h.right_mem hRold hnstep hx hr
  have hreachn : ∀ j, reaches s src j → reaches (hCopy s src) s.next j := by
    intro j hsj
    rcases reaches_peel hsj with heq | htail
    · subst heq
      obtain ⟨m, hm0, hm⟩ := ring_closure h.right_mem h.left_right hsrc
      have hmeq : m - 1 + 1 = m := by omega
      rw [← hmeq, Function.iterate_succ_apply] at hm
      have htail2 : reaches s (rightOf s src) src := ⟨m - 1, hm⟩
      exact reaches_trans (reaches_step hnstep) (hlift hrt htail2)
    · exact reaches_trans (reaches_step hnstep) (hlift hrt htail)
  have hreach2n : ∀ i ∈ s.dom, reaches s i src → reaches (hCopy s src) i s.next := by
    intro i hi hisrc
    have hstep : rightOf (hCopy s src) src = s.next := by rw [hR, if_pos rfl]
    exact reaches_trans (hlift hi hisrc) (reaches_step hstep)
  constructor
  · rw [hdom]
    refine List.nodup_cons.mpr ⟨fun hc => hne hc rfl, h.dom_nodup⟩
  · intro i hi
    rw [hdom] at hi
    show i < s.next + 1
    rcases List.mem_cons.mp hi with hi | hi
    · omega
    · have := h.dom_lt i hi; omega
  · intro i
    rw [hS, hdom]
    by_cases hin : i = s.next
    · simp [hin]
    · simp only [hin, if_false, List.mem_cons, false_or]
      exact h.objs_dom i
  · intro i hi
    rw [hdom] at hi ⊢
    rcases List.mem_cons.mp hi with hi | hi
    · rw [hR, if_neg (hi ▸ hnsrc), if_pos hi]
      exact List.mem_cons_of_mem _ hrt
    · rw [hRold i hi]
      by_cases h1 : i = src
      · simp [h1]
      · rw [if_neg h1]
        exact List.mem_cons_of_mem _ (h.right_mem i hi)
  · intro i hi
    rw [hdom] at hi ⊢
    rcases List.mem_cons.mp hi with hi | hi
    · rw [hL, if_pos hi]
      exact List.mem_cons_of_mem _ hsrc
    · rw [hL, if_neg (hne hi)]
      by_cases h1 : i = rightOf s src
      · simp [h1]
      · rw [if_neg h1]
        exact List.mem_cons_of_mem _ (h.left_mem i hi)
  · intro i hi
    rw [hdom] at hi
    rcases List.mem_cons.mp hi with hi | hi
    · subst hi
      rw [hnstep, hL, if_neg hrtn, if_pos rfl]
    · by_cases h1 : i = src
      · subst h1
        rw [hR, if_pos rfl, hL, if_pos rfl]
      · rw [hRold i hi, if_neg h1, hL, if_neg (hne (h.right_mem i hi))]
        have h2 : ¬(rightOf s i = rightOf s src) := by
          intro hc
          apply h1
          have e1 := h.left_right i hi
          have e2 := h.left_right src hsrc
          rw [hc, e2] at e1
          exact e1.symm
        rw [if_neg h2]
        exact h.left_right i hi
  · intro i hi
    rw [hdom] at hi
    rcases List.mem_cons.mp hi with hi | hi
    · subst hi
      rw [hL, if_pos rfl, hR, if_pos rfl]
    · rw [hL, if_neg (hne hi)]
      by_cases h1 : i = rightOf s src
      · subst h1
        rw [if_pos rfl, hnstep]
      · rw [if_neg h1]
        have h2 : ¬(leftOf s i = src) := by
          intro hc
          apply h1
          have e1 := h.right_left i hi
          rw [hc] at e1
          exact e1.symm
        rw [hRold _ (h.left_mem i hi), if_neg h2]
        exact h.right_left i hi
  · intro i hi
    rw [hdom] at hi
    rcases List.mem_cons.mp hi with hi | hi
    · subst hi
      rw [hnstep, hP, if_neg hrtn, hP, if_pos rfl]
      exact h.ptr_right src hsrc
    · by_cases h1 : i = src
      · subst h1
        rw [hR, if_pos rfl, hP, if_pos rfl, hPold _ hi]
      · rw [hRold i hi, if_neg h1, hPold _ (h.right_mem i hi), hPold _ hi]
        exact h.ptr_right i hi
  · intro i hi j hj hpi hpij
    rw [hdom] at hi hj
    rcases List.mem_cons.mp hi with hi | hi <;> rcases List.mem_cons.mp hj with hj | hj
    · subst hi; subst hj
      exact reaches_refl _ _
    · subst hi
      rw [hP, if_pos rfl] at hpi hpij
      rw [hPold j hj] at hpij
      exact hreachn j (h.same_ring src hsrc j hj hpi hpij)
    · subst hj
      rw [hPold i hi] at hpi hpij
      rw [hP, if_pos rfl] at hpij
      exact hreach2n i hi (h.same_ring i hi src hsrc hpi hpij)
    · rw [hPold i hi] at hpi hpij
      rw [hPold j hj] at hpij
      exact hlift hi (h.same_ring i hi j hj hpi hpij)
  · intro i hi hpi
    rw [hdom] at hi
    rw [hfr]
    rcases List.mem_cons.mp hi with hi | hi
    · subst hi
      rw [hP, if_pos rfl] at hpi ⊢
      exact h.held_not_freed src hsrc hpi
    · rw [hPold i hi] at hpi ⊢
      exact h.held_not_freed i hi hpi
  · rw [hfr]
    exact h.freed_nodup
  · intro q hq
    rw [hfr, hdom, h.freed_iff q hq]
    constructor
    · rintro ⟨hqi, hall⟩
      refine ⟨hqi, ?_⟩
      intro i hi
      rcases List.mem_cons.mp hi with hi | hi
      · subst hi
        rw [hP, if_pos rfl]
        exact hall src hsrc
      · rw [hPold i hi]
        exact hall i hi
    · rintro ⟨hqi, hall⟩
      refine ⟨hqi, ?_⟩
      intro i hi
      have hrec := hall i (List.mem_cons_of_mem _ hi)
      rwa [hPold i hi] at hrec
  · intro i hi hpi
    rw [hdom] at hi
    rcases List.mem_cons.mp hi with hi | hi
    · subst hi
      rw [hP, if_pos rfl] at hpi ⊢
      exact h.held_inst src hsrc hpi
    · rw [hPold i hi] at hpi ⊢
      exact h.held_inst i hi hpi

theorem objs_delPtr (s : St) (q : Nat) : (delPtr s q).objs = s.objs := by
  unfold delPtr; split <;> rfl

theorem dom_delPtr (s : St) (q : Nat) : (delPtr s q).dom = s.dom := by
  unfold delPtr; split <;> rfl

theorem next_delPtr (s : St) (q : Nat) : (delPtr s q).next = s.next := by
  unfold delPtr; split <;> rfl

theorem freed_delPtr (s : St) (q : Nat) :
    (delPtr s q).freed = if q = 0 then s.freed else s.freed ++ [q] := by
  unfold delPtr; split <;> simp_all

theorem ptrOf_delPtr (s : St) (q j : Nat) : ptrOf (delPtr s q) j = ptrOf s j := by
  unfold ptrOf; rw [objs_delPtr]

theorem leftOf_delPtr (s : St) (q j : Nat) : leftOf (delPtr s q) j = leftOf s j := by
  unfold leftOf; rw [objs_delPtr]

theorem rightOf_delPtr (s : St) (q j : Nat) : rightOf (delPtr s q) j = rightOf s j := by
  unfold rightOf; rw [objs_delPtr]

theorem hReset0_eq (s : St) (i : Nat) : hReset0 s i = hResetP s i 0 := rfl

/-- Resetting a live handle, with a null or fresh replacement pointer,
preserves the invariant: if the node was unique its resource is deleted,
otherwise the node is only unspliced from its ring. -/
theorem Inv_resetP {inst : List Nat} {s : St} (h : Inv inst s) {i p : Nat}
    (hi : i ∈ s.dom)
    (hfresh : p = 0 ∨ (p ∉ s.freed ∧ ∀ j ∈ s.dom, ptrOf s j ≠ p)) :
    Inv (inst ++ if p = 0 then [] else [p]) (hResetP s i p) := by
  have hSi : (s.objs i).isSome = true := h.isSome hi
  have hpne : p ≠ 0 → ∀ j ∈ s.dom, ptrOf s j ≠ p := by
    intro hp0
    rcases hfresh with h0 | ⟨_, hh⟩
    · exact absurd h0 hp0
    · exact hh
  have hpnf : p ≠ 0 → p ∉ s.freed := by
    intro hp0
    rcases hfresh with h0 | ⟨hh, _⟩
    · exact absurd h0 hp0
    · exact hh
  by_cases hu : uniqueAt s i = true
  · -- unique: delete the resource, node stays a singleton
    obtain ⟨hul, hur⟩ := uniqueAt_iff.mp hu
    have hform : hResetP s i p = setPtr (delPtr s (ptrOf s i)) i p := by
      unfold hResetP
      rw [if_pos hu]
    have hSi2 : ((delPtr s (ptrOf s i)).objs i).isSome = true := by
      rw [objs_delPtr]; exact hSi
    have hP : ∀ j, ptrOf (hResetP s i p) j = if j = i then p else ptrOf s j := by
      intro j
      rw [hform, ptrOf_setPtr, ptrOf_delPtr]
      by_cases h1 : j = i
      · rw [if_pos ⟨h1, hSi2⟩, if_pos h1]
      · rw [if_neg (fun hc => h1 hc.1), if_neg h1]
    have hL : ∀ j, leftOf (hResetP s i p) j = leftOf s j := by
      intro j
      rw [hform, leftOf_setPtr, leftOf_delPtr]
    have hR : ∀ j, rightOf (hResetP s i p) j = rightOf s j := by
      intro j
      rw [hform, rightOf_setPtr, rightOf_delPtr]
    have hS : ∀ j, ((hResetP s i p).objs j).isSome = (s.objs j).isSome := by
      intro j
      rw [hform, isSome_setPtr, objs_delPtr]
    have hdom : (hResetP s i p).dom = s.dom := by
      rw [hform, dom_setPtr, dom_delPtr]
    have hnext : (hResetP s i p).next = s.next := by
      rw [hform, next_setPtr, next_delPtr]
    have hfr : (hResetP s i p).freed =
        if ptrOf s i = 0 then s.freed else s.freed ++ [ptrOf s i] := by
      rw [hform, freed_setPtr, freed_delPtr]
    have hsole : ptrOf s i ≠ 0 → ∀ j ∈ s.dom, j ≠ i → ptrOf s j ≠ ptrOf s i := by
      intro hp0 j hj hji hc
      exact hji (h.unique_sole hi hu hp0 j hj hc)
    have hreq : ∀ x y, reaches (hResetP s i p) x y ↔ reaches s x y := by
      intro x y
      have hrf : rightFun (hResetP s i p) = rightFun s := funext fun z => hR z
      unfold reaches
      rw [hrf]
    have hrineq : ∀ j ∈ s.dom, j ≠ i → rightOf s j ≠ i := by
      intro j hj hji hc
      apply hji
      have := h.left_right j hj
      rw [hc, hul] at this
      exact this.symm
    constructor
    · rw [hdom]; exact h.dom_nodup
    · intro j hj
      rw [hdom] at hj
      rw [hnext]
      exact h.dom_lt j hj
    · intro j
      rw [hS, hdom]
      exact h.objs_dom j
    · intro j hj
      rw [hdom] at hj ⊢
      rw [hR]
      exact h.right_mem j hj
    · intro j hj
      rw [hdom] at hj ⊢
      rw [hL]
      exact h.left_mem j hj
    · intro j hj
      rw [hdom] at hj
      rw [hR, hL]
      exact h.left_right j hj
    · intro j hj
      rw [hdom] at hj
      rw [hL, hR]
      exact h.right_left j hj
    · intro j hj
      rw [hdom] at hj
      rw [hR]
      by_cases h1 : j = i
      · subst h1
        rw [hur]
      · rw [hP, hP, if_neg h1, if_neg (hrineq j hj h1)]
        exact h.ptr_right j hj
    · intro x hx y hy hpx hpxy
      rw [hdom] at hx hy
      rw [hreq]
      rw [hP] at hpx hpxy
      rw [hP] at hpxy
      by_cases h1 : x = i <;> by_cases h2 : y = i
      · subst h1; subst h2
        exact reaches_refl _ _
      · exfalso
        rw [if_pos h1] at hpx hpxy
        rw [if_neg h2] at hpxy
        exact hpne hpx y hy hpxy.symm
      · exfalso
        rw [if_neg h1] at hpx hpxy
        rw [if_pos h2] at hpxy
        exact hpne (fun hc => hpx (hpxy.trans hc)) x hx hpxy
      · rw [if_neg h1] at hpx hpxy
        rw [if_neg h2] at hpxy
        exact h.same_ring x hx y hy hpx hpxy
    · intro j hj hpj
      rw [hdom] at hj
      rw [hfr]
      rw [hP] at hpj ⊢
      by_cases h1 : j = i
      · rw [if_pos h1] at hpj ⊢
        split
        · exact hpnf hpj
        · intro hc
          rcases List.mem_append.mp hc with hc | hc
          · exact hpnf hpj hc
          · rw [List.mem_singleton] at hc
            exact hpne hpj i hi (hc ▸ rfl)
      · rw [if_neg h1] at hpj ⊢
        split
        · exact h.held_not_freed j hj hpj
        · rename_i hp0
          intro hc
          rcases List.mem_append.mp hc with hc | hc
          · exact h.held_not_freed j hj hpj hc
          · rw [List.mem_singleton] at hc
            exact hsole hp0 j hj h1 hc
    · rw [hfr]
      split
      · exact h.freed_nodup
      · rename_i hp0
        refine List.Nodup.append h.freed_nodup (List.nodup_singleton _) ?_
        intro q hq hq2
        rw [List.mem_singleton] at hq2
        subst hq2
        exact h.held_not_freed i hi hp0 hq
    · intro q hq
      rw [hfr, hdom]
      by_cases hqp0 : ptrOf s i ≠ 0 ∧ q = ptrOf s i
      · obtain ⟨hp0, hqe⟩ := hqp0
        subst hqe
        rw [if_neg hp0]
        constructor
        · intro _
          refine ⟨List.mem_append_left _ (h.held_inst i hi hp0), ?_⟩
          intro j hj
          rw [hP]
          by_cases h1 : j = i
          · rw [if_pos h1]
            intro hc
            exact hpne (fun hcc => hp0 (hc ▸ hcc)) i hi hc.symm
          · rw [if_neg h1]
            exact hsole hp0 j hj h1
        · intro _
          exact List.mem_append_right _ (List.mem_singleton.mpr rfl)
      · have hLHS : (q ∈ (if ptrOf s i = 0 then s.freed else s.freed ++ [ptrOf s i]))
            ↔ q ∈ s.freed := by
          split
          · exact Iff.rfl
          · rename_i hp0
            rw [List.mem_append, List.mem_singleton]
            constructor
            · intro hc
              rcases hc with hc | hc
              · exact hc
              · exact absurd ⟨hp0, hc⟩ hqp0
            · exact Or.inl
        rw [hLHS]
        by_cases hqp : q = p
        · subst hqp
          have hq0 : q ≠ 0 := hq
          constructor
          · intro hc
            exact absurd hc (hpnf hq0)
          · rintro ⟨_, hall⟩
            exfalso
            have hcon := hall i hi
            rw [hP, if_pos rfl] at hcon
            exact hcon rfl
        · have hinst : q ∈ (inst ++ if p = 0 then [] else [p]) ↔ q ∈ inst := by
            split
            · simp
            · simp [hqp]
          rw [h.freed_iff q hq, hinst]
          constructor
          · rintro ⟨hqi, hall⟩
            refine ⟨hqi, ?_⟩
            intro j hj
            rw [hP]
            by_cases h1 : j = i
            · rw [if_pos h1]
              exact fun hc => hqp hc.symm
            · rw [if_neg h1]
              exact hall j hj
          · rintro ⟨hqi, hall⟩
            refine ⟨hqi, ?_⟩
            intro j hj
            have hrec := hall j hj
            rw [hP] at hrec
            by_cases h1 : j = i
            · subst h1
              intro hc
              apply hqp0
              refine ⟨?_, hc.symm⟩
              intro hc0
              rw [hc0] at hc
              exact hq hc.symm
            · rw [if_neg h1] at hrec
              exact hrec
    · intro j hj hpj
      rw [hdom] at hj
      rw [hP] at hpj ⊢
      by_cases h1 : j = i
      · rw [if_pos h1] at hpj ⊢
        have hp0 : ¬(p = 0) := hpj
        refine List.mem_append_right _ ?_
        simp [hp0]
      · rw [if_neg h1] at hpj ⊢
        exact List.mem_append_left _ (h.held_inst j hj hpj)
  · -- not unique: unsplice the node from its ring, no deletion
    have hu2 : uniqueAt s i = false := by
      cases hcase : uniqueAt s i
      · rfl
      · exact absurd hcase hu
    obtain ⟨hli, hri⟩ := h.nonunique_partner hi hu2
    have hlmem : leftOf s i ∈ s.dom := h.left_mem i hi
    have hrmem : rightOf s i ∈ s.dom := h.right_mem i hi
    have hSl : (s.objs (leftOf s i)).isSome = true := h.isSome hlmem
    have hSr : (s.objs (rightOf s i)).isSome = true := h.isSome hrmem
    have hform : hResetP s i p = setPtr (eraseNode s i) i p := by
      unfold hResetP
      rw [if_neg hu]
    have hSi2 : ((eraseNode s i).objs i).isSome = true := by
      rw [erase_isSome]; exact hSi
    have hP : ∀ j, ptrOf (hResetP s i p) j = if j = i then p else ptrOf s j := by
      intro j
      rw [hform, ptrOf_setPtr, erase_ptrOf]
      by_cases h1 : j = i
      · rw [if_pos ⟨h1, hSi2⟩, if_pos h1]
      · rw [if_neg (fun hc => h1 hc.1), if_neg h1]
    have hR : ∀ j, rightOf (hResetP s i p) j =
        if j = i then i else if j = leftOf s i then rightOf s i else rightOf s j := by
      intro j
      rw [hform, rightOf_setPtr]
      exact erase_rightOf hSi hSl j
    have hL : ∀ j, leftOf (hResetP s i p) j =
        if j = i then i else if j = rightOf s i then leftOf s i else leftOf s j := by
      intro j
      rw [hform, leftOf_setPtr]
      exact erase_leftOf hSi hSr j
    have hS : ∀ j, ((hResetP s i p).objs j).isSome = (s.objs j).isSome := by
      intro j
      rw [hform, isSome_setPtr, erase_isSome]
    have hdom : (hResetP s i p).dom = s.dom := by
      rw [hform, dom_setPtr, erase_dom]
    have hnext : (hResetP s i p).next = s.next := by
      rw [hform, next_setPtr, erase_next]
    have hfr : (hResetP s i p).freed = s.freed := by
      rw [hform, freed_setPtr, erase_freed]
    have hRold : ∀ z ∈ s.dom, z ≠ i → rightOf (hResetP s i p) z =
        if z = leftOf s i then rightOf s i else rightOf s z := by
      intro z _ hz
      rw [hR, if_neg hz]
    have hlift : ∀ {x y : Nat}, x ∈ s.dom → x ≠ i → y ≠ i → reaches s x y →
        reaches (hResetP s i p) x y :=
      fun hx hxi hyi hrch =>
        reaches_erase_lift h.right_mem h.left_right (h.right_left i hi) hi hRold
          hx hxi hyi hrch
    -- facts about who still holds the old resource
    have hpl : ptrOf s (leftOf s i) = ptrOf s i := by
      have e1 := h.ptr_right (leftOf s i) hlmem
      rw [h.right_left i hi] at e1
      exact e1.symm
    have hrneq : ∀ j ∈ s.dom, j ≠ i → j ≠ leftOf s i → rightOf s j ≠ i ∧
        rightOf s j ≠ rightOf s i := by
      intro j hj hji hjl
      constructor
      · intro hc
        apply hjl
        have := h.left_right j hj
        rw [hc] at this
        exact this.symm
      · intro hc
        apply hji
        have e1 := h.left_right j hj
        have e2 := h.left_right i hi
        rw [hc, e2] at e1
        exact e1.symm
    have hlneq : ∀ j ∈ s.dom, j ≠ i → j ≠ rightOf s i → leftOf s j ≠ i ∧
        leftOf s j ≠ leftOf s i := by
      intro j hj hji hjr
      constructor
      · intro hc
        apply hjr
        have := h.right_left j hj
        rw [hc] at this
        exact this.symm
      · intro hc
        apply hji
        have e1 := h.right_left j hj
        have e2 := h.right_left i hi
        rw [hc, e2] at e1
        exact e1.symm
    constructor
    · rw [hdom]; exact h.dom_nodup
    · intro j hj
      rw [hdom] at hj
      rw [hnext]
      exact h.dom_lt j hj
    · intro j
      rw [hS, hdom]
      exact h.objs_dom j
    · intro j hj
      rw [hdom] at hj ⊢
      rw [hR]
      by_cases h1 : j = i
      · rw [if_pos h1]
        exact h1 ▸ hj
      · rw [if_neg h1]
        by_cases h2 : j = leftOf s i
        · rw [if_pos h2]
          exact hrmem
        · rw [if_neg h2]
          exact h.right_mem j hj
    · intro j hj
      rw [hdom] at hj ⊢
      rw [hL]
      by_cases h1 : j = i
      · rw [if_pos h1]
        exact h1 ▸ hj
      · rw [if_neg h1]
        by_cases h2 : j = rightOf s i
        · rw [if_pos h2]
          exact hlmem
        · rw [if_neg h2]
          exact h.left_mem j hj
    · intro j hj
      rw [hdom] at hj
      rw [hR]
      by_cases h1 : j = i
      · rw [if_pos h1, hL, if_pos rfl]
        exact h1.symm
      · rw [if_neg h1]
        by_cases h2 : j = leftOf s i
        · rw [if_pos h2, hL, if_neg hri, if_pos rfl]
          exact h2.symm
        · rw [if_neg h2]
          obtain ⟨hn1, hn2⟩ := hrneq j hj h1 h2
          rw [hL, if_neg hn1, if_neg hn2]
          exact h.left_right j hj
    · intro j hj
      rw [hdom] at hj
      rw [hL]
      by_cases h1 : j = i
      · rw [if_pos h1, hR, if_pos rfl]
        exact h1.symm
      · rw [if_neg h1]
        by_cases h2 : j = rightOf s i
        · rw [if_pos h2, hR, if_neg hli, if_pos rfl]
          exact h2.symm
        · rw [if_neg h2]
          obtain ⟨hn1, hn2⟩ := hlneq j hj h1 h2
          rw [hR, if_neg hn1, if_neg hn2]
          exact h.right_left j hj
    · intro j hj
      rw [hdom] at hj
      rw [hR]
      by_cases h1 : j = i
      · rw [if_pos h1, hP, hP, if_pos rfl, if_pos h1]
      · rw [if_neg h1]
        by_cases h2 : j = leftOf s i
        · rw [if_pos h2, hP, hP, if_neg hri, if_neg h1]
          rw [h2, hpl]
          exact h.ptr_right i hi
        · rw [if_neg h2]
          obtain ⟨hn1, _⟩ := hrneq j hj h1 h2
          rw [hP, hP, if_neg hn1, if_neg h1]
          exact h.ptr_right j hj
    · intro x hx y hy hpx hpxy
      rw [hdom] at hx hy
      rw [hP] at hpx hpxy
      rw [hP] at hpxy
      by_cases h1 : x = i <;> by_cases h2 : y = i
      · subst h1; subst h2
        exact reaches_refl _ _
      · exfalso
        rw [if_pos h1] at hpx hpxy
        rw [if_neg h2] at hpxy
        exact hpne hpx y hy hpxy.symm
      · exfalso
        rw [if_neg h1] at hpx hpxy
        rw [if_pos h2] at hpxy
        exact hpne (fun hc => hpx (hpxy.trans hc)) x hx hpxy
      · rw [if_neg h1] at hpx hpxy
        rw [if_neg h2] at hpxy
        exact hlift hx h1 h2 (h.same_ring x hx y hy hpx hpxy)
    · intro j hj hpj
      rw [hdom] at hj
      rw [hfr]
      rw [hP] at hpj ⊢
      by_cases h1 : j = i
      · rw [if_pos h1] at hpj ⊢
        exact hpnf hpj
      · rw [if_neg h1] at hpj ⊢
        exact h.held_not_freed j hj hpj
    · rw [hfr]
      exact h.freed_nodup
    · intro q hq
      rw [hfr, hdom]
      by_cases hqp : q = p
      · subst hqp
        have hq0 : q ≠ 0 := hq
        constructor
        · intro hc
          exact absurd hc (hpnf hq0)
        · rintro ⟨_, hall⟩
          exfalso
          have hcon := hall i hi
          rw [hP, if_pos rfl] at hcon
          exact hcon rfl
      · have hinst : q ∈ (inst ++ if p = 0 then [] else [p]) ↔ q ∈ inst := by
          split
          · simp
          · simp [hqp]
        rw [h.freed_iff q hq, hinst]
        constructor
        · rintro ⟨hqi, hall⟩
          refine ⟨hqi, ?_⟩
          intro j hj
          rw [hP]
          by_cases h1 : j = i
          · rw [if_pos h1]
            exact fun hc => hqp hc.symm
          · rw [if_neg h1]
            exact hall j hj
        · rintro ⟨hqi, hall⟩
          refine ⟨hqi, ?_⟩
          intro j hj
          by_cases h1 : j = i
          · subst h1
            intro hc
            have hcon := hall (rightOf s j) (h.right_mem j hj)
            rw [hP, if_neg hri] at hcon
            rw [← h.ptr_right j hj] at hc
            exact hcon hc
          · have hrec := hall j hj
            rw [hP, if_neg h1] at hrec
            exact hrec
    · intro j hj hpj
      rw [hdom] at hj
      rw [hP] at hpj ⊢
      by_cases h1 : j = i
      · rw [if_pos h1] at hpj ⊢
        have hp0 : ¬(p = 0) := hpj
        refine List.mem_append_right _ ?_
        simp [hp0]
      · rw [if_neg h1] at hpj ⊢
        exact List.mem_append_left _ (h.held_inst j hj hpj)

theorem dom_hResetP (s : St) (i p : Nat) : (hResetP s i p).dom = s.dom := by
  unfold hResetP
  rw [dom_setPtr]
  split
  · rw [dom_delPtr]
  · rw [erase_dom]

theorem next_hResetP (s : St) (i p : Nat) : (hResetP s i p).next = s.next := by
  unfold hResetP
  rw [next_setPtr]
  split
  · rw [next_delPtr]
  · rw [erase_next]

theorem isSome_hResetP (s : St) (i p j : Nat) :
    ((hResetP s i p).objs j).isSome = (s.objs j).isSome := by
  unfold hResetP
  rw [isSome_setPtr]
  split
  · rw [objs_delPtr]
  · rw [erase_isSome]

theorem ptrOf_hResetP_self {s : St} {i : Nat} (hSi : (s.objs i).isSome = true)
    (p : Nat) : ptrOf (hResetP s i p) i = p := by
  unfold hResetP
  by_cases hu : uniqueAt s i = true
  · rw [if_pos hu, ptrOf_setPtr, if_pos ⟨rfl, by rw [objs_delPtr]; exact hSi⟩]
  · rw [if_neg hu, ptrOf_setPtr, if_pos ⟨rfl, by rw [erase_isSome]; exact hSi⟩]

theorem hResetP_singleton {s : St} {i : Nat} (hSi : (s.objs i).isSome = true)
    (hSl : (s.objs (leftOf s i)).isSome = true)
    (hSr : (s.objs (rightOf s i)).isSome = true) (p : Nat) :
    leftOf (hResetP s i p) i = i ∧ rightOf (hResetP s i p) i = i := by
  unfold hResetP
  by_cases hu : uniqueAt s i = true
  · obtain ⟨hul, hur⟩ := uniqueAt_iff.mp hu
    rw [if_pos hu, leftOf_setPtr, rightOf_setPtr, leftOf_delPtr, rightOf_delPtr]
    exact ⟨hul, hur⟩
  · rw [if_neg hu, leftOf_setPtr, rightOf_setPtr]
    constructor
    · rw [erase_leftOf hSi hSr, if_pos rfl]
    · rw [erase_rightOf hSi hSl, if_pos rfl]

/-- Destroying a live handle preserves the invariant: the handle resets
itself and its slot disappears. -/
theorem Inv_destroy {inst : List Nat} {s : St} (h : Inv inst s) {i : Nat}
    (hi : i ∈ s.dom) : Inv inst (hDestroy s i) := by
  have h1 : Inv inst (hResetP s i 0) := by
    have h2 := Inv_resetP h hi (Or.inl rfl)
    simpa using h2
  have hSi : (s.objs i).isSome = true := h.isSome hi
  have hSl : (s.objs (leftOf s i)).isSome = true := h.isSome (h.left_mem i hi)
  have hSr : (s.objs (rightOf s i)).isSome = true := h.isSome (h.right_mem i hi)
  obtain ⟨hsl, hsr⟩ := hResetP_singleton hSi hSl hSr 0
  have hp0 : ptrOf (hResetP s i 0) i = 0 := ptrOf_hResetP_self hSi 0
  have hi1 : i ∈ (hResetP s i 0).dom := by rw [dom_hResetP]; exact hi
  have hform : hDestroy s i =
      { hResetP s i 0 with
        objs := Function.update (hResetP s i 0).objs i none,
        dom := (hResetP s i 0).dom.erase i } := rfl
  set s1 := hResetP s i 0 with hs1
  have hobjs : ∀ j, (hDestroy s i).objs j = if j = i then none else s1.objs j := by
    intro j
    rw [hform]
    simp [Function.update_apply]
  have hP : ∀ j, j ≠ i → ptrOf (hDestroy s i) j = ptrOf s1 j := by
    intro j hj
    unfold ptrOf
    rw [hobjs, if_neg hj]
  have hL : ∀ j, j ≠ i → leftOf (hDestroy s i) j = leftOf s1 j := by
    intro j hj
    unfold leftOf
    rw [hobjs, if_neg hj]
  have hR : ∀ j, j ≠ i → rightOf (hDestroy s i) j = rightOf s1 j := by
    intro j hj
    unfold rightOf
    rw [hobjs, if_neg hj]
  have hRall : ∀ j ∈ s1.dom, rightOf (hDestroy s i) j = rightOf s1 j := by
    intro j _
    by_cases hj : j = i
    · have e1 : rightOf (hDestroy s i) j = j := by
        unfold rightOf
        rw [hobjs, if_pos hj]
        rfl
      rw [e1, hj, hsr]
    · exact hR j hj
  have hdom : (hDestroy s i).dom = s1.dom.erase i := rfl
  have hfr : (hDestroy s i).freed = s1.freed := rfl
  have hnext : (hDestroy s i).next = s1.next := rfl
  have hmem : ∀ {j : Nat}, j ∈ (hDestroy s i).dom ↔ j ≠ i ∧ j ∈ s1.dom := by
    intro j
    rw [hdom]
    exact h1.dom_nodup.mem_erase_iff
  have hnopoint : ∀ j ∈ s1.dom, j ≠ i → rightOf s1 j ≠ i := by
    intro j hj hji hc
    apply hji
    have e1 := h1.left_right j hj
    rw [hc, hsl] at e1
    exact e1.symm
  have hnopointL : ∀ j ∈ s1.dom, j ≠ i → leftOf s1 j ≠ i := by
    intro j hj hji hc
    apply hji
    have e1 := h1.right_left j hj
    rw [hc, hsr] at e1
    exact e1.symm
  constructor
  · rw [hdom]
    exact h1.dom_nodup.erase i
  · intro j hj
    rw [hnext]
    exact h1.dom_lt j (List.mem_of_mem_erase (hdom ▸ hj))
  · intro j
    by_cases hj : j = i
    · subst hj
      rw [hobjs, if_pos rfl]
      simp only [Option.isSome_none, hmem]
      constructor
      · intro hc; exact absurd hc (Bool.false_ne_true)
      · rintro ⟨hc, _⟩; exact absurd rfl hc
    · unfold Membership.mem
      rw [show ((hDestroy s i).objs j).isSome = (s1.objs j).isSome by
        rw [hobjs, if_neg hj]]
      rw [h1.objs_dom j]
      constructor
      · intro hc
        exact hmem.mpr ⟨hj, hc⟩
      · intro hc
        exact (hmem.mp hc).2
  · intro j hj
    obtain ⟨hji, hj1⟩ := hmem.mp hj
    rw [hR j hji]
    exact hmem.mpr ⟨hnopoint j hj1 hji, h1.right_mem j hj1⟩
  · intro j hj
    obtain ⟨hji, hj1⟩ := hmem.mp hj
    rw [hL j hji]
    exact hmem.mpr ⟨hnopointL j hj1 hji, h1.left_mem j hj1⟩
  · intro j hj
    obtain ⟨hji, hj1⟩ := hmem.mp hj
    rw [hR j hji, hL _ (hnopoint j hj1 hji)]
    exact h1.left_right j hj1
  · intro j hj
    obtain ⟨hji, hj1⟩ := hmem.mp hj
    rw [hL j hji, hR _ (hnopointL j hj1 hji)]
    exact h1.right_left j hj1
  · intro j hj
    obtain ⟨hji, hj1⟩ := hmem.mp hj
    rw [hR j hji, hP _ (hnopoint j hj1 hji), hP j hji]
    exact h1.ptr_right j hj1
  · intro x hx y hy hpx hpxy
    obtain ⟨hxi, hx1⟩ := hmem.mp hx
    obtain ⟨hyi, hy1⟩ := hmem.mp hy
    rw [hP x hxi] at hpx hpxy
    rw [hP y hyi] at hpxy
    exact reaches_congr h1.right_mem hRall hx1
      (h1.same_ring x hx1 y hy1 hpx hpxy)
  · intro j hj hpj
    obtain ⟨hji, hj1⟩ := hmem.mp hj
    rw [hP j hji] at hpj ⊢
    rw [hfr]
    exact h1.held_not_freed j hj1 hpj
  · rw [hfr]
    exact h1.freed_nodup
  · intro q hq
    rw [hfr, h1.freed_iff q hq]
    constructor
    · rintro ⟨hqi, hall⟩
      refine ⟨hqi, ?_⟩
      intro j hj
      obtain ⟨hji, hj1⟩ := hmem.mp hj
      rw [hP j hji]
      exact hall j hj1
    · rintro ⟨hqi, hall⟩
      refine ⟨hqi, ?_⟩
      intro j hj
      by_cases hji : j = i
      · subst hji
        rw [hp0]
        exact fun hc => hq hc.symm
      · have hrec := hall j (hmem.mpr ⟨hji, hj⟩)
        rwa [hP j hji] at hrec
  · intro j hj hpj
    obtain ⟨hji, hj1⟩ := hmem.mp hj
    rw [hP j hji] at hpj ⊢
    exact h1.held_inst j hj1 hpj

/-- Swapping two live handles preserves the invariant, provided the swap
is an early no-op (equal resources) or the two nodes agree on being
singleton (the shape under which the base swap is correct). -/
theorem Inv_swap {inst : List Nat} {s : St} (h : Inv inst s) {a b : Nat}
    (ha : a ∈ s.dom) (hb : b ∈ s.dom)
    (hok : ptrOf s a = ptrOf s b ∨ uniqueAt s a = uniqueAt s b) :
    Inv inst (hSwap s a b) := by
  by_cases hpeq : ptrOf s a = ptrOf s b
  · have e : hSwap s a b = s := by
      unfold hSwap
      rw [if_pos (beq_iff_eq.mpr hpeq)]
    rw [e]
    exact h
  have huab : uniqueAt s a = uniqueAt s b := hok.resolve_left hpeq
  have hab : a ≠ b := fun hc => hpeq (hc ▸ rfl)
  have hSa : (s.objs a).isSome = true := h.isSome ha
  have hSb : (s.objs b).isSome = true := h.isSome hb
  have e : hSwap s a b = setPtr (setPtr (baseSwap s a b) a (ptrOf (baseSwap s a b) b))
      b (ptrOf (baseSwap s a b) a) := by
    unfold hSwap
    rw [if_neg (fun hc => hpeq (beq_iff_eq.mp hc))]
  have hBP : ∀ j, ptrOf (baseSwap s a b) j = ptrOf s j := baseSwap_ptrOf s a b
  have hSBa : ((baseSwap s a b).objs a).isSome = true := by
    rw [baseSwap_isSome]; exact hSa
  have hP : ∀ j, ptrOf (hSwap s a b) j =
      if j = b then ptrOf s a else if j = a then ptrOf s b else ptrOf s j := by
    intro j
    rw [e, ptrOf_setPtr]
    by_cases h1 : j = b
    · rw [if_pos ⟨h1, by rw [isSome_setPtr, baseSwap_isSome]; exact hSb⟩, hBP, if_pos h1]
    · rw [if_neg (fun hc => h1 hc.1), ptrOf_setPtr, if_neg h1]
      by_cases h2 : j = a
      · rw [if_pos ⟨h2, hSBa⟩, hBP, if_pos h2]
      · rw [if_neg (fun hc => h2 hc.1), hBP, if_neg h2]
  have hR0 : ∀ j, rightOf (hSwap s a b) j = rightOf (baseSwap s a b) j := by
    intro j
    rw [e, rightOf_setPtr, rightOf_setPtr]
  have hL0 : ∀ j, leftOf (hSwap s a b) j = leftOf (baseSwap s a b) j := by
    intro j
    rw [e, leftOf_setPtr, leftOf_setPtr]
  have hdom : (hSwap s a b).dom = s.dom := by
    rw [e, dom_setPtr, dom_setPtr, baseSwap_dom]
  have hfr : (hSwap s a b).freed = s.freed := by
    rw [e, freed_setPtr, freed_setPtr, baseSwap_freed]
  have hnext : (hSwap s a b).next = s.next := by
    rw [e, next_setPtr, next_setPtr, baseSwap_next]
  have hS : ∀ j, ((hSwap s a b).objs j).isSome = (s.objs j).isSome := by
    intro j
    rw [e, isSome_setPtr, isSome_setPtr, baseSwap_isSome]
  have hσmem : ∀ x ∈ s.dom, transp a b x ∈ s.dom := by
    intro x hx
    unfold transp
    split
    · exact hb
    · split
      · exact ha
      · exact hx
  have hPσ : ∀ x, ptrOf (hSwap s a b) x = ptrOf s (transp a b x) := by
    intro x
    rw [hP]
    by_cases h1 : x = a
    · subst h1
      rw [if_neg hab, if_pos rfl, transp_left]
    · by_cases h2 : x = b
      · subst h2
        rw [if_pos rfl, transp_right]
      · rw [if_neg h2, if_neg h1, transp_other h1 h2]
  -- the right- and left-neighbour maps after the swap are the relabelling
  -- of the original maps by the transposition of a and b
  have hRσ : ∀ x ∈ s.dom, rightOf (hSwap s a b) x =
      transp a b (rightOf s (transp a b x)) := by
    by_cases hua : uniqueAt s a = true
    · have hub : uniqueAt s b = true := huab ▸ hua
      have eB : baseSwap s a b = s := baseSwap_of_unique hua hub
      obtain ⟨hal, har⟩ := uniqueAt_iff.mp hua
      obtain ⟨hbl, hbr⟩ := uniqueAt_iff.mp hub
      intro x hx
      rw [hR0, eB]
      by_cases h1 : x = a
      · subst h1
        rw [transp_left, hbr, transp_right, har]
      · by_cases h2 : x = b
        · subst h2
          rw [transp_right, har, transp_left, hbr]
        · rw [transp_other h1 h2]
          have hna : rightOf s x ≠ a := by
            intro hc
            apply h1
            have e1 := h.left_right x hx
            rw [hc, hal] at e1
            exact e1.symm
          have hnb : rightOf s x ≠ b := by
            intro hc
            apply h2
            have e1 := h.left_right x hx
            rw [hc, hbl] at e1
            exact e1.symm
          rw [transp_other hna hnb]
    · have hua2 : uniqueAt s a = false := Bool.not_eq_true _ ▸ Bool.of_not_eq_true hua
      have hub2 : uniqueAt s b = false := huab ▸ hua2
      obtain ⟨hla, hra⟩ := h.nonunique_partner ha hua2
      obtain ⟨hlb, hrb⟩ := h.nonunique_partner hb hub2
      have hnra : ¬reaches s a b := by
        intro hr
        exact hpeq (ptrOf_reaches h.right_mem h.ptr_right ha hr).symm
      have hnrb : ¬reaches s b a := by
        intro hr
        exact hpeq (ptrOf_reaches h.right_mem h.ptr_right hb hr)
      have hrab : rightOf s a ≠ b := fun hc => hnra (reaches_step hc)
      have hrba : rightOf s b ≠ a := fun hc => hnrb (reaches_step hc)
      have hlab : leftOf s a ≠ b := by
        intro hc
        exact hnrb (reaches_step (by rw [← hc]; exact h.right_left a ha))
      have hlba : leftOf s b ≠ a := by
        intro hc
        exact hnra (reaches_step (by rw [← hc]; exact h.right_left b hb))
      have hll : leftOf s a ≠ leftOf s b := by
        intro hc
        apply hab
        have e1 := h.right_left a ha
        have e2 := h.right_left b hb
        rw [hc] at e1
        rw [e2] at e1
        exact e1.symm ▸ e1
      have hrr : rightOf s a ≠ rightOf s b := by
        intro hc
        apply hab
        have e1 := h.left_right a ha
        have e2 := h.left_right b hb
        rw [hc, e2] at e1
        exact e1.symm
      have hSla : (s.objs (leftOf s a)).isSome = true := h.isSome (h.left_mem a ha)
      have hSra : (s.objs (rightOf s a)).isSome = true := h.isSome (h.right_mem a ha)
      have hSlb : (s.objs (leftOf s b)).isSome = true := h.isSome (h.left_mem b hb)
      have hSrb : (s.objs (rightOf s b)).isSome = true := h.isSome (h.right_mem b hb)
      have hchar := baseSwap_rightOf hSa hSb hSla hSra hSlb hSrb hla hra hlb hrb
        hab hlab hrab hlba hrba hll hrr
      intro x hx
      rw [hR0, hchar]
      by_cases h1 : x = leftOf s a
      · subst h1
        rw [if_pos rfl, transp_other hla hlab, h.right_left a ha, transp_left]
      · by_cases h2 : x = leftOf s b
        · subst h2
          rw [if_neg h1, if_pos rfl, transp_other hlba hlb, h.right_left b hb,
            transp_right]
        · by_cases h3 : x = b
          · subst h3
            rw [if_neg h1, if_neg h2, if_pos rfl, transp_right, transp_other hra hrab]
          · by_cases h4 : x = a
            · subst h4
              rw [if_neg h1, if_neg h2, if_neg h3, if_pos rfl, transp_left,
                transp_other hrba hrb]
            · rw [if_neg h1, if_neg h2, if_neg h3, if_neg h4, transp_other h4 h3]
              have hna : rightOf s x ≠ a := by
                intro hc
                apply h1
                have e1 := h.left_right x hx
                rw [hc] at e1
                exact e1.symm
              have hnb : rightOf s x ≠ b := by
                intro hc
                apply h2
                have e1 := h.left_right x hx
                rw [hc] at e1
                exact e1.symm
              rw [transp_other hna hnb]
  have hLσ : ∀ x ∈ s.dom, leftOf (hSwap s a b) x =
      transp a b (leftOf s (transp a b x)) := by
    by_cases hua : uniqueAt s a = true
    · have hub : uniqueAt s b = true := huab ▸ hua
      have eB : baseSwap s a b = s := baseSwap_of_unique hua hub
      obtain ⟨hal, har⟩ := uniqueAt_iff.mp hua
      obtain ⟨hbl, hbr⟩ := uniqueAt_iff.mp hub
      intro x hx
      rw [hL0, eB]
      by_cases h1 : x = a
      · subst h1
        rw [transp_left, hbl, transp_right, hal]
      · by_cases h2 : x = b
        · subst h2
          rw [transp_right, hal, transp_left, hbl]
        · rw [transp_other h1 h2]
          have hna : leftOf s x ≠ a := by
            intro hc
            apply h1
            have e1 := h.right_left x hx
            rw [hc, har] at e1
            exact e1.symm
          have hnb : leftOf s x ≠ b := by
            intro hc
            apply h2
            have e1 := h.right_left x hx
            rw [hc, hbr] at e1
            exact e1.symm
          rw [transp_other hna hnb]
    · have hua2 : uniqueAt s a = false := Bool.not_eq_true _ ▸ Bool.of_not_eq_true hua
      have hub2 : uniqueAt s b = false := huab ▸ hua2
      obtain ⟨hla, hra⟩ := h.nonunique_partner ha hua2
      obtain ⟨hlb, hrb⟩ := h.nonunique_partner hb hub2
      have hnra : ¬reaches s a b := by
        intro hr
        exact hpeq (ptrOf_reaches h.right_mem h.ptr_right ha hr).symm
      have hnrb : ¬reaches s b a := by
        intro hr
        exact hpeq (ptrOf_reaches h.right_mem h.ptr_right hb hr)
      have hrab : rightOf s a ≠ b := fun hc => hnra (reaches_step hc)
      have hrba : rightOf s b ≠ a := fun hc => hnrb (reaches_step hc)
      have hlab : leftOf s a ≠ b := by
        intro hc
        exact hnrb (reaches_step (by rw [← hc]; exact h.right_left a ha))
      have hlba : leftOf s b ≠ a := by
        intro hc
        exact hnra (reaches_step (by rw [← hc]; exact h.right_left b hb))
      have hll : leftOf s a ≠ leftOf s b := by
        intro hc
        apply hab
        have e1 := h.right_left a ha
        have e2 := h.right_left b hb
        rw [hc, e2] at e1
        exact e1.symm
      have hrr : rightOf s a ≠ rightOf s b := by
        intro hc
        apply hab
        have e1 := h.left_right a ha
        have e2 := h.left_right b hb
        rw [hc, e2] at e1
        exact e1.symm
      have hSla : (s.objs (leftOf s a)).isSome = true := h.isSome (h.left_mem a ha)
      have hSra : (s.objs (rightOf s a)).isSome = true := h.isSome (h.right_mem a ha)
      have hSlb : (s.objs (leftOf s b)).isSome = true := h.isSome (h.left_mem b hb)
      have hSrb : (s.objs (rightOf s b)).isSome = true := h.isSome (h.right_mem b hb)
      have hchar := baseSwap_leftOf hSa hSb hSla hSra hSlb hSrb hla hra hlb hrb
        hab hlab hrab hlba hrba hll hrr
      intro x hx
      rw [hL0, hchar]
      by_cases h1 : x = rightOf s a
      · subst h1
        rw [if_pos rfl, transp_other hra hrab, h.left_right a ha, transp_left]
      · by_cases h2 : x = rightOf s b
        · subst h2
          rw [if_neg h1, if_pos rfl, transp_other hrba hrb, h.left_right b hb,
            transp_right]
        · by_cases h3 : x = b
          · subst h3
            rw [if_neg h1, if_neg h2, if_pos rfl, transp_right, transp_other hla hlab]
          · by_cases h4 : x = a
            · subst h4
              rw [if_neg h1, if_neg h2, if_neg h3, if_pos rfl, transp_left,
                transp_other hlba hlb]
            · rw [if_neg h1, if_neg h2, if_neg h3, if_neg h4, transp_other h4 h3]
              have hna : leftOf s x ≠ a := by
                intro hc
                apply h1
                have e1 := h.right_left x hx
                rw [hc] at e1
                exact e1.symm
              have hnb : leftOf s x ≠ b := by
                intro hc
                apply h2
                have e1 := h.right_left x hx
                rw [hc] at e1
                exact e1.symm
              rw [transp_other hna hnb]
  have hreach : ∀ {x y : Nat}, x ∈ s.dom → reaches s x y →
      reaches (hSwap s a b) (transp a b x) (transp a b y) := by
    intro x y hx hr
    refine reaches_relabel h.right_mem ?_ hx hr
    intro z hz
    rw [hRσ (transp a b z) (hσmem z hz), transp_invol]
  constructor
  · rw [hdom]; exact h.dom_nodup
  · intro j hj
    rw [hdom] at hj
    rw [hnext]
    exact h.dom_lt j hj
  · intro j
    rw [hS, hdom]
    exact h.objs_dom j
  · intro j hj
    rw [hdom] at hj ⊢
    rw [hRσ j hj]
    exact hσmem _ (h.right_mem _ (hσmem j hj))
  · intro j hj
    rw [hdom] at hj ⊢
    rw [hLσ j hj]
    exact hσmem _ (h.left_mem _ (hσmem j hj))
  · intro j hj
    rw [hdom] at hj
    rw [hRσ j hj, hLσ _ (hσmem _ (h.right_mem _ (hσmem j hj))), transp_invol,
      h.left_right _ (hσmem j hj), transp_invol]
  · intro j hj
    rw [hdom] at hj
    rw [hLσ j hj, hRσ _ (hσmem _ (h.left_mem _ (hσmem j hj))), transp_invol,
      h.right_left _ (hσmem j hj), transp_invol]
  · intro j hj
    rw [hdom] at hj
    rw [hRσ j hj, hPσ, hPσ, transp_invol]
    exact h.ptr_right _ (hσmem j hj)
  · intro x hx y hy hpx hpxy
    rw [hdom] at hx hy
    rw [hPσ] at hpx hpxy
    rw [hPσ] at hpxy
    have hr := h.same_ring _ (hσmem x hx) _ (hσmem y hy) hpx hpxy
    have hr2 := hreach (hσmem x hx) hr
    rwa [transp_invol, transp_invol] at hr2
  · intro j hj hpj
    rw [hdom] at hj
    rw [hfr]
    rw [hPσ] at hpj ⊢
    exact h.held_not_freed _ (hσmem j hj) hpj
  · rw [hfr]
    exact h.freed_nodup
  · intro q hq
    rw [hfr, h.freed_iff q hq, hdom]
    constructor
    · rintro ⟨hqi, hall⟩
      refine ⟨hqi, ?_⟩
      intro j hj
      rw [hPσ]
      exact hall _ (hσmem j hj)
    · rintro ⟨hqi, hall⟩
      refine ⟨hqi, ?_⟩
      intro j hj
      have hrec := hall _ (hσmem j hj)
      rw [hPσ, transp_invol] at hrec
      exact hrec
  · intro j hj hpj
    rw [hdom] at hj
    rw [hPσ] at hpj ⊢
    exact h.held_inst _ (hσmem j hj) hpj

theorem liveB_iff {s : St} {i : Nat} : liveB s i = true ↔ i ∈ s.dom := by
  simp [liveB, List.contains, List.elem_iff]

theorem heldB_iff {s : St} {p : Nat} : heldB s p = true ↔ ∃ i ∈ s.dom, ptrOf s i = p := by
  simp [heldB]

theorem freshB_iff {s : St} {p : Nat} :
    freshB s p = true ↔ p ∉ s.freed ∧ ∀ i ∈ s.dom, ptrOf s i ≠ p := by
  rw [freshB]
  simp only [Bool.and_eq_true, Bool.not_eq_true']
  constructor
  · rintro ⟨hh, hc⟩
    constructor
    · intro hmem
      have hcc : s.freed.contains p = true := by
        simp [List.contains, List.elem_iff, hmem]
      rw [hcc] at hc
      exact Bool.true_eq_false.mp hc
    · intro i hi hc2
      rw [show heldB s p = true from heldB_iff.mpr ⟨i, hi, hc2⟩] at hh
      exact absurd hh (by simp)
  · rintro ⟨hnf, hnh⟩
    constructor
    · cases hcase : heldB s p
      · rfl
      · obtain ⟨i, hi, hpi⟩ := heldB_iff.mp hcase
        exact absurd hpi (hnh i hi)
    · cases hcase : s.freed.contains p
      · rfl
      · exfalso
        apply hnf
        have := hcase
        simpa [List.contains, List.elem_iff] using this

/-- One valid, swap-shape-respecting step preserves the invariant. -/
theorem Inv_stepOp {inst : List Nat} {s : St} (h : Inv inst s) {op : Op}
    (hok : okOp s op = true) (hsw : swapOk s op = true) :
    Inv (inst ++ installedOf [op]) (stepOp s op) := by
  cases op with
  | mkDefault =>
    show Inv (inst ++ installedOf [Op.mkDefault]) (hMkRaw s 0)
    have h2 := Inv_mkRaw h (Or.inl rfl)
    simpa [installedOf] using h2
  | mkRaw p =>
    rw [okOp, Bool.and_eq_true] at hok
    obtain ⟨hp0, hfr⟩ := hok
    have hp0' : p ≠ 0 := by simpa using hp0
    obtain ⟨hnf, hnh⟩ := freshB_iff.mp hfr
    show Inv (inst ++ installedOf [Op.mkRaw p]) (hMkRaw s p)
    have h2 := Inv_mkRaw h (Or.inr ⟨hnf, hnh⟩)
    simpa [installedOf, hp0'] using h2
  | copy src =>
    rw [okOp] at hok
    have hsrc : src ∈ s.dom := liveB_iff.mp hok
    show Inv (inst ++ installedOf [Op.copy src]) (hCopy s src)
    simpa [installedOf] using Inv_copy h hsrc
  | reset0 i =>
    rw [okOp] at hok
    have hi : i ∈ s.dom := liveB_iff.mp hok
    show Inv (inst ++ installedOf [Op.reset0 i]) (hReset0 s i)
    rw [hReset0_eq]
    have h2 := Inv_resetP h hi (Or.inl rfl)
    simpa [installedOf] using h2
  | resetP i p =>
    rw [okOp, Bool.and_eq_true] at hok
    obtain ⟨hl, hfr⟩ := hok
    have hi : i ∈ s.dom := liveB_iff.mp hl
    rw [Bool.or_eq_true] at hfr
    show Inv (inst ++ installedOf [Op.resetP i p]) (hResetP s i p)
    by_cases hp0 : p = 0
    · have h2 := Inv_resetP h hi (Or.inl hp0)
      simpa [installedOf, hp0] using h2
    · have hfr2 : freshB s p = true := by
        rcases hfr with hc | hc
        · exact absurd (by simpa using hc) hp0
        · exact hc
      obtain ⟨hnf, hnh⟩ := freshB_iff.mp hfr2
      have h2 := Inv_resetP h hi (Or.inr ⟨hnf, hnh⟩)
      simpa [installedOf, hp0] using h2
  | destroy i =>
    rw [okOp] at hok
    have hi : i ∈ s.dom := liveB_iff.mp hok
    show Inv (inst ++ installedOf [Op.destroy i]) (hDestroy s i)
    simpa [installedOf] using Inv_destroy h hi
  | swap i j =>
    rw [okOp, Bool.and_eq_true] at hok
    obtain ⟨hl1, hl2⟩ := hok
    have hi : i ∈ s.dom := liveB_iff.mp hl1
    have hj : j ∈ s.dom := liveB_iff.mp hl2
    rw [swapOk, Bool.or_eq_true] at hsw
    have hok2 : ptrOf s i = ptrOf s j ∨ uniqueAt s i = uniqueAt s j := by
      rcases hsw with hc | hc
      · exact Or.inl (by simpa using hc)
      · exact Or.inr (by simpa using hc)
    show Inv (inst ++ installedOf [Op.swap i j]) (hSwap s i j)
    simpa [installedOf] using Inv_swap h hi hj hok2

theorem installedOf_cons (op : Op) (rest : List Op) :
    installedOf (op :: rest) = installedOf [op] ++ installedOf rest := by
  cases op <;> simp [installedOf] <;> split <;> simp

/-- The invariant holds along every valid, swap-shape-respecting trace. -/
theorem Inv_goodRun : ∀ (ops : List Op) (s : St) (inst : List Nat),
    Inv inst s → goodRun s ops = true → Inv (inst ++ installedOf ops) (exec s ops) := by
  intro ops
  induction ops with
  | nil =>
    intro s inst h _
    simpa [installedOf, exec] using h
  | cons op rest ih =>
    intro s inst h hg
    rw [goodRun, Bool.and_eq_true, Bool.and_eq_true] at hg
    obtain ⟨⟨hok, hsw⟩, hrest⟩ := hg
    have hstep := Inv_stepOp h hok hsw
    have hrec := ih (stepOp s op) (inst ++ installedOf [op]) hstep hrest
    rw [installedOf_cons, ← List.append_assoc]
    exact hrec

/-! ## The claims -/

/-- A resource reference read through the comparison operators: get(). -/
def lpGet (o : Obj) : Nat := o.ptr

/-- The operation list of the counterexample trace for claim C1: two
resources (addresses 5 and 7), a copy of the second handle, a swap of the
first handle (a singleton) with the second (in a two-member ring), then
destruction of everything. -/
def c1ceOps : List Op :=
  [Op.mkRaw 5, Op.mkRaw 7, Op.copy 1, Op.swap 0 1, Op.destroy 1, Op.destroy 2,
    Op.destroy 0]

/-- C1 (counterexample to the claim as stated): a valid sequence of handle
operations (every operation acts on a live handle and every raw pointer is
fresh, okRun) on which a ring that held the non-null resource 5 loses it
without a single deallocation: after all handles are destroyed the freed
log contains only 7.  The swap of a singleton with a member of a
two-element ring corrupts the rings, so handle 1, sole owner of 5 after
the swap, believes it is not unique and merely unsplices itself. -/
theorem c1_counterexample :
    okRun init c1ceOps = true ∧
    ptrOf (exec init [Op.mkRaw 5]) 0 = 5 ∧
    5 ∈ installedOf c1ceOps ∧
    (exec init c1ceOps).dom = [] ∧
    (exec init c1ceOps).freed = [7] := by
  decide

/-- C1 (amended): over any valid trace of handle operations in which no
swap is applied to two handles of different resources of which exactly one
is a sole owner (goodRun), deallocation is invoked at most once per
address (the freed log has no duplicates), and a non-null address is in
the freed log exactly when its ownership was transferred into a handle and
no live handle still stores it — release happens exactly at the moment the
last remaining ring member is erased or destroyed, and never a second
time. -/
theorem c1_release_exactly_once (ops : List Op) (s : St)
    (hgood : goodRun init ops = true) (hrun : exec init ops = s) :
    s.freed.Nodup ∧
      ∀ p, p ≠ 0 →
        (p ∈ s.freed ↔ p ∈ installedOf ops ∧ ∀ i ∈ s.dom, ptrOf s i ≠ p) := by
  subst hrun
  have hInv := Inv_goodRun ops init [] Inv_init hgood
  rw [List.nil_append] at hInv
  exact ⟨hInv.freed_nodup, fun p hp => hInv.freed_iff p hp⟩

/-- Witness for C1 on a concrete trace: one resource, one copy, both
handles destroyed; the resource is released exactly once. -/
theorem c1_release_exactly_once_witness :
    (exec init [Op.mkRaw 3, Op.copy 0, Op.destroy 0, Op.destroy 1]).freed.Nodup ∧
    3 ∈ (exec init [Op.mkRaw 3, Op.copy 0, Op.destroy 0, Op.destroy 1]).freed := by
  have h := c1_release_exactly_once
    [Op.mkRaw 3, Op.copy 0, Op.destroy 0, Op.destroy 1] _ (by decide) rfl
  refine ⟨h.1, ?_⟩
  exact (h.2 3 (by decide)).mpr ⟨by decide, by decide⟩

/-- C2 (evaluation of the code at the failing input): handle 0 is a
singleton owning 5; handles 1 and 2 form a ring owning 7.  The claim
requires swap to exchange the memberships: 0 should join the ring with 2
and 1 should become a singleton.  Instead the source's swap leaves both
neighbour fields of 0 and of 1 pointing at each other (a spurious
two-element ring) while 2 still points at 0, which does not point back:
membership is not exchanged and the structure is corrupted. -/
theorem c2_swap_one_singleton_corrupts :
    okRun init [Op.mkRaw 5, Op.mkRaw 7, Op.copy 1] = true ∧
    uniqueAt (exec init [Op.mkRaw 5, Op.mkRaw 7, Op.copy 1]) 0 = true ∧
    uniqueAt (exec init [Op.mkRaw 5, Op.mkRaw 7, Op.copy 1]) 1 = false ∧
    ptrOf (exec init [Op.mkRaw 5, Op.mkRaw 7, Op.copy 1]) 0 = 5 ∧
    ptrOf (exec init [Op.mkRaw 5, Op.mkRaw 7, Op.copy 1]) 1 = 7 ∧
    rightOf (hSwap (exec init [Op.mkRaw 5, Op.mkRaw 7, Op.copy 1]) 0 1) 0 = 1 ∧
    leftOf (hSwap (exec init [Op.mkRaw 5, Op.mkRaw 7, Op.copy 1]) 0 1) 0 = 1 ∧
    uniqueAt (hSwap (exec init [Op.mkRaw 5, Op.mkRaw 7, Op.copy 1]) 0 1) 1 = false ∧
    rightOf (hSwap (exec init [Op.mkRaw 5, Op.mkRaw 7, Op.copy 1]) 0 1) 2 = 0 ∧
    leftOf (hSwap (exec init [Op.mkRaw 5, Op.mkRaw 7, Op.copy 1]) 0 1) 2 = 0 ∧
    ptrOf (hSwap (exec init [Op.mkRaw 5, Op.mkRaw 7, Op.copy 1]) 0 1) 0 = 7 ∧
    ptrOf (hSwap (exec init [Op.mkRaw 5, Op.mkRaw 7, Op.copy 1]) 0 1) 1 = 5 := by
  decide

/-- C3: on a well-formed live node, the destructor and reset() obey the
release-or-detach rule: a unique node deallocates its non-null resource; a
non-unique node is only unspliced (no deallocation, its former neighbours
are reconnected to each other, every other handle's resource reference is
untouched, and the right neighbour still owns the old resource); after
reset() the handle is an empty singleton. -/
theorem c3_release_or_detach (s : St) (i : Nat)
    (hSi : (s.objs i).isSome = true)
    (hSl : (s.objs (leftOf s i)).isSome = true)
    (hSr : (s.objs (rightOf s i)).isSome = true)
    (hlr : leftOf s (rightOf s i) = i)
    (hrl : rightOf s (leftOf s i) = i) :
    (uniqueAt s i = true → ptrOf s i ≠ 0 →
      (hReset0 s i).freed = s.freed ++ [ptrOf s i] ∧
      (hDestroy s i).freed = s.freed ++ [ptrOf s i]) ∧
    (uniqueAt s i = false →
      (hReset0 s i).freed = s.freed ∧ (hDestroy s i).freed = s.freed ∧
      rightOf (hReset0 s i) (leftOf s i) = rightOf s i ∧
      leftOf (hReset0 s i) (rightOf s i) = leftOf s i ∧
      ptrOf (hReset0 s i) (rightOf s i) = ptrOf s (rightOf s i) ∧
      (∀ x, x ≠ i → ptrOf (hReset0 s i) x = ptrOf s x)) ∧
    ptrOf (hReset0 s i) i = 0 ∧ uniqueAt (hReset0 s i) i = true := by
  have hfreedD : (hDestroy s i).freed = (hReset0 s i).freed := rfl
  refine ⟨?_, ?_, ?_, ?_⟩
  · intro hu hp
    have e1 : (hReset0 s i).freed = s.freed ++ [ptrOf s i] := by
      rw [hReset0_eq]
      unfold hResetP
      rw [if_pos hu, freed_setPtr, freed_delPtr, if_neg hp]
    exact ⟨e1, hfreedD ▸ e1⟩
  · intro hu
    have hnu : ¬(uniqueAt s i = true) := by simp [hu]
    have hli : leftOf s i ≠ i := by
      intro hc
      apply hnu
      apply uniqueAt_iff.mpr
      rw [hc] at hrl
      exact ⟨hc, hrl⟩
    have hri : rightOf s i ≠ i := by
      intro hc
      apply hnu
      apply uniqueAt_iff.mpr
      rw [hc] at hlr
      exact ⟨hlr, hc⟩
    have e1 : (hReset0 s i).freed = s.freed := by
      rw [hReset0_eq]
      unfold hResetP
      rw [if_neg hnu, freed_setPtr, erase_freed]
    have hform : hReset0 s i = setPtr (eraseNode s i) i 0 := by
      rw [hReset0_eq]
      unfold hResetP
      rw [if_neg hnu]
    refine ⟨e1, hfreedD ▸ e1, ?_, ?_, ?_, ?_⟩
    · rw [hform, rightOf_setPtr, erase_rightOf hSi hSl, if_neg hli, if_pos rfl]
    · rw [hform, leftOf_setPtr, erase_leftOf hSi hSr, if_neg hri, if_pos rfl]
    · rw [hform, ptrOf_setPtr, erase_ptrOf,
        if_neg (fun hc => hri hc.1)]
    · intro x hx
      rw [hform, ptrOf_setPtr, erase_ptrOf, if_neg (fun hc => hx hc.1)]
  · rw [hReset0_eq]
    exact ptrOf_hResetP_self hSi 0
  · rw [hReset0_eq]
    obtain ⟨h1, h2⟩ := hResetP_singleton hSi hSl hSr 0
    exact uniqueAt_iff.mpr ⟨h1, h2⟩

/-- Witness for C3, on a two-member ring (detach branch) and on a sole
owner (release branch). -/
theorem c3_release_or_detach_witness :
    (hReset0 (exec init [Op.mkRaw 3, Op.copy 0]) 0).freed =
      (exec init [Op.mkRaw 3, Op.copy 0]).freed ∧
    ptrOf (hReset0 (exec init [Op.mkRaw 3, Op.copy 0]) 0) 0 = 0 ∧
    uniqueAt (hReset0 (exec init [Op.mkRaw 3, Op.copy 0]) 0) 0 = true ∧
    (hReset0 (exec init [Op.mkRaw 3]) 0).freed =
      (exec init [Op.mkRaw 3]).freed ++ [ptrOf (exec init [Op.mkRaw 3]) 0] := by
  have h1 := c3_release_or_detach (exec init [Op.mkRaw 3, Op.copy 0]) 0
    (by decide) (by decide) (by decide) (by decide) (by decide)
  have h2 := c3_release_or_detach (exec init [Op.mkRaw 3]) 0
    (by decide) (by decide) (by decide) (by decide) (by decide)
  exact ⟨(h1.2.1 (by decide)).1, h1.2.2.1, h1.2.2.2,
    (h2.1 (by decide) (by decide)).1⟩

/-- C4: reset(new_ref) on a shared (non-unique) well-formed handle makes
it a singleton solely owning the new reference, releases nothing, leaves
every other handle's resource reference unchanged, and changes the other
nodes' neighbour fields only by reconnecting the erased node's former
neighbours to each other — the former ring minus this node is intact and
still owns the old resource. -/
theorem c4_reset_shared (s : St) (i p : Nat)
    (hSi : (s.objs i).isSome = true)
    (hSl : (s.objs (leftOf s i)).isSome = true)
    (hSr : (s.objs (rightOf s i)).isSome = true)
    (hlr : leftOf s (rightOf s i) = i)
    (hrl : rightOf s (leftOf s i) = i)
    (hu : uniqueAt s i = false) :
    uniqueAt (hResetP s i p) i = true ∧
    ptrOf (hResetP s i p) i = p ∧
    (hResetP s i p).freed = s.freed ∧
    (∀ x, x ≠ i → ptrOf (hResetP s i p) x = ptrOf s x) ∧
    ptrOf (hResetP s i p) (rightOf s i) = ptrOf s (rightOf s i) ∧
    (∀ x, x ≠ i →
      rightOf (hResetP s i p) x =
        (if x = leftOf s i then rightOf s i else rightOf s x) ∧
      leftOf (hResetP s i p) x =
        (if x = rightOf s i then leftOf s i else leftOf s x)) := by
  have hnu : ¬(uniqueAt s i = true) := by simp [hu]
  have hri : rightOf s i ≠ i := by
    intro hc
    apply hnu
    apply uniqueAt_iff.mpr
    rw [hc] at hlr
    exact ⟨hlr, hc⟩
  have hform : hResetP s i p = setPtr (eraseNode s i) i p := by
    unfold hResetP
    rw [if_neg hnu]
  obtain ⟨h1, h2⟩ := hResetP_singleton hSi hSl hSr p
  refine ⟨uniqueAt_iff.mpr ⟨h1, h2⟩, ptrOf_hResetP_self hSi p, ?_, ?_, ?_, ?_⟩
  · rw [hform, freed_setPtr, erase_freed]
  · intro x hx
    rw [hform, ptrOf_setPtr, erase_ptrOf, if_neg (fun hc => hx hc.1)]
  · rw [hform, ptrOf_setPtr, erase_ptrOf, if_neg (fun hc => hri hc.1)]
  · intro x hx
    constructor
    · rw [hform, rightOf_setPtr, erase_rightOf hSi hSl, if_neg hx]
    · rw [hform, leftOf_setPtr, erase_leftOf hSi hSr, if_neg hx]

/-- Witness for C4, resetting one member of a two-member ring to the
fresh address 9. -/
theorem c4_reset_shared_witness :
    uniqueAt (hResetP (exec init [Op.mkRaw 3, Op.copy 0]) 0 9) 0 = true ∧
    ptrOf (hResetP (exec init [Op.mkRaw 3, Op.copy 0]) 0 9) 0 = 9 ∧
    (hResetP (exec init [Op.mkRaw 3, Op.copy 0]) 0 9).freed =
      (exec init [Op.mkRaw 3, Op.copy 0]).freed ∧
    ptrOf (hResetP (exec init [Op.mkRaw 3, Op.copy 0]) 0 9) 1 =
      ptrOf (exec init [Op.mkRaw 3, Op.copy 0]) 1 := by
  have h := c4_reset_shared (exec init [Op.mkRaw 3, Op.copy 0]) 0 9
    (by decide) (by decide) (by decide) (by decide) (by decide) (by decide)
  exact ⟨h.1, h.2.1, h.2.2.1, h.2.2.2.1 1 (by decide)⟩

/-- C5 (evaluation of the code at the failing input): two singleton
handles, 0 owning 5 and 1 owning 7.  Same-type assignment 0 = 1 runs the
compiler-generated memberwise copy (the template operator= of lines
135-140 is not a copy-assignment operator, and its body's unqualified call
to insert_after does not resolve, so it is ill-formed if instantiated).
Afterwards handle 0 does point at resource 7, but nothing was released
(the old resource 5 leaks, freed stays empty) and handle 0 never becomes a
member of handle 1's ring: iterating 1's right neighbour only ever yields
1 itself, while the claim requires release-or-detach followed by joining
the right-hand side's ring. -/
theorem c5_assign_memberwise_diverges :
    ptrOf (assignMemberwise (exec init [Op.mkRaw 5, Op.mkRaw 7]) 0 1) 0 = 7 ∧
    (assignMemberwise (exec init [Op.mkRaw 5, Op.mkRaw 7]) 0 1).freed = [] ∧
    rightOf (assignMemberwise (exec init [Op.mkRaw 5, Op.mkRaw 7]) 0 1) 1 = 1 ∧
    leftOf (assignMemberwise (exec init [Op.mkRaw 5, Op.mkRaw 7]) 0 1) 1 = 1 ∧
    rightOf (assignMemberwise (exec init [Op.mkRaw 5, Op.mkRaw 7]) 0 1) 0 = 1 ∧
    ∀ k, (rightFun (assignMemberwise (exec init [Op.mkRaw 5, Op.mkRaw 7]) 0 1))^[k] 1
      = 1 := by
  refine ⟨by decide, by decide, by decide, by decide, by decide, ?_⟩
  intro k
  exact Function.iterate_fixed (by decide) k

/-- C6: copy construction from a live handle splices the new node into the
source's ring immediately after the source and adopts the source's
resource reference; afterwards the two get() values agree and neither
handle is unique. -/
theorem c6_copy_shares (s : St) (src : Nat)
    (hsn : src ≠ s.next)
    (hrtn : rightOf s src ≠ s.next)
    (hSsrc : (s.objs src).isSome = true)
    (hSrt : (s.objs (rightOf s src)).isSome = true) :
    ptrOf (hCopy s src) s.next = ptrOf s src ∧
    ptrOf (hCopy s src) src = ptrOf s src ∧
    uniqueAt (hCopy s src) s.next = false ∧
    uniqueAt (hCopy s src) src = false ∧
    rightOf (hCopy s src) src = s.next ∧
    leftOf (hCopy s src) s.next = src ∧
    rightOf (hCopy s src) s.next = rightOf s src := by
  have hA1 : ((alloc s ⟨0, s.next, s.next⟩).objs s.next).isSome = true := by
    rw [isSome_alloc]; simp
  have hA2 : ((alloc s ⟨0, s.next, s.next⟩).objs src).isSome = true := by
    rw [isSome_alloc, if_neg hsn]; exact hSsrc
  have hA3 : rightOf (alloc s ⟨0, s.next, s.next⟩) src = rightOf s src := by
    rw [rightOf_alloc, if_neg hsn]
  have hA4 : ((alloc s ⟨0, s.next, s.next⟩).objs
      (rightOf (alloc s ⟨0, s.next, s.next⟩) src)).isSome = true := by
    rw [hA3, isSome_alloc, if_neg hrtn]; exact hSrt
  have hR : ∀ j, rightOf (hCopy s src) j =
      if j = src then s.next else if j = s.next then rightOf s src else rightOf s j := by
    intro j
    show rightOf (setPtr (insertAfter (alloc s ⟨0, s.next, s.next⟩) s.next src) s.next
      (ptrOf (insertAfter (alloc s ⟨0, s.next, s.next⟩) s.next src) src)) j = _
    rw [rightOf_setPtr, ins_rightOf hA1 hA2, hA3, rightOf_alloc]
    by_cases h1 : j = src
    · simp [h1]
    · by_cases h2 : j = s.next <;> simp [h1, h2]
  have hL : ∀ j, leftOf (hCopy s src) j =
      if j = s.next then src else if j = rightOf s src then s.next else leftOf s j := by
    intro j
    show leftOf (setPtr (insertAfter (alloc s ⟨0, s.next, s.next⟩) s.next src) s.next
      (ptrOf (insertAfter (alloc s ⟨0, s.next, s.next⟩) s.next src) src)) j = _
    rw [leftOf_setPtr, ins_leftOf hA1 hA4, hA3, leftOf_alloc]
    by_cases h1 : j = s.next
    · simp [h1]
    · by_cases h2 : j = rightOf s src <;> simp [h1, h2]
  have hP : ∀ j, ptrOf (hCopy s src) j =
      if j = s.next then ptrOf s src else ptrOf s j := by
    intro j
    show ptrOf (setPtr (insertAfter (alloc s ⟨0, s.next, s.next⟩) s.next src) s.next
      (ptrOf (insertAfter (alloc s ⟨0, s.next, s.next⟩) s.next src) src)) j = _
    have hps : ptrOf (insertAfter (alloc s ⟨0, s.next, s.next⟩) s.next src) src
        = ptrOf s src := by
      rw [ins_ptrOf, ptrOf_alloc, if_neg hsn]
    have hisS : ((insertAfter (alloc s ⟨0, s.next, s.next⟩) s.next src).objs
        s.next).isSome = true := by
      rw [ins_isSome]; exact hA1
    rw [ptrOf_setPtr]
    by_cases h1 : j = s.next
    · rw [if_pos ⟨h1, hisS⟩, hps, if_pos h1]
    · rw [if_neg (fun hc => h1 hc.1), ins_ptrOf, ptrOf_alloc, if_neg h1, if_neg h1]
  have hnsrc : ¬(s.next = src) := fun hc => hsn hc.symm
  refine ⟨?_, ?_, ?_, ?_, ?_, ?_, ?_⟩
  · rw [hP, if_pos rfl]
  · rw [hP, if_neg hsn]
  · apply uniqueAt_false_of_left
    rw [hL, if_pos rfl]
    exact hsn
  · apply uniqueAt_false_of_right
    rw [hR, if_pos rfl]
    exact hnsrc
  · rw [hR, if_pos rfl]
  · rw [hL, if_pos rfl]
  · rw [hR, if_neg hnsrc, if_pos rfl]

/-- Witness for C6: copying the sole owner of address 4. -/
theorem c6_copy_shares_witness :
    ptrOf (hCopy (exec init [Op.mkRaw 4]) 0) 1 = 4 ∧
    ptrOf (hCopy (exec init [Op.mkRaw 4]) 0) 0 = 4 ∧
    uniqueAt (hCopy (exec init [Op.mkRaw 4]) 0) 1 = false ∧
    uniqueAt (hCopy (exec init [Op.mkRaw 4]) 0) 0 = false := by
  have h := c6_copy_shares (exec init [Op.mkRaw 4]) 0
    (by decide) (by decide) (by decide) (by decide)
  exact ⟨h.1, h.2.1, h.2.2.1, h.2.2.2.1⟩

/-- C7: the six comparison operators are determined solely by the raw
resource-reference identity read through get(), never by the ring fields;
operator< is irreflexive, asymmetric and transitive over the addresses;
operator== holds exactly when the two get() results are the identical
reference; and the operators !=, >, <=, >= are consistent with < and
==. -/
theorem c7_comparisons (x y z : Obj) :
    (lpEq x y = true ↔ lpGet x = lpGet y) ∧
    lpNe x y = !(lpEq x y) ∧
    lpLt x x = false ∧
    (lpLt x y = true → lpLt y x = false) ∧
    (lpLt x y = true → lpLt y z = true → lpLt x z = true) ∧
    lpGt x y = lpLt y x ∧
    lpLe x y = (lpLt x y || lpEq x y) ∧
    lpGe x y = (lpGt x y || lpEq x y) ∧
    (∀ l r l2 r2 : Nat,
      lpEq ⟨lpGet x, l, r⟩ ⟨lpGet y, l2, r2⟩ = lpEq x y ∧
      lpLt ⟨lpGet x, l, r⟩ ⟨lpGet y, l2, r2⟩ = lpLt x y) := by
  obtain ⟨px, lx, rx⟩ := x
  obtain ⟨py, ly, ry⟩ := y
  obtain ⟨pz, lz, rz⟩ := z
  refine ⟨?_, ?_, ?_, ?_, ?_, ?_, ?_, ?_, ?_⟩
  · simp [lpEq, lpGet]
  · rfl
  · simp [lpLt]
  · simp only [lpLt, decide_eq_true_eq, decide_eq_false_iff_not]
    omega
  · simp only [lpLt, decide_eq_true_eq]
    omega
  · rw [Bool.eq_iff_iff]
    simp only [lpGt, lpLt, lpEq, Bool.and_eq_true, Bool.not_eq_true',
      decide_eq_true_eq, decide_eq_false_iff_not, beq_eq_false_iff_ne, ne_eq]
    omega
  · rw [Bool.eq_iff_iff]
    simp only [lpLe, lpGt, lpLt, lpEq]
    simp only [Bool.not_eq_true', Bool.and_eq_false_iff, Bool.or_eq_true,
      decide_eq_true_eq, decide_eq_false_iff_not, Bool.not_eq_false', beq_iff_eq,
      beq_eq_false_iff_ne, ne_eq]
    try omega
  · rw [Bool.eq_iff_iff]
    simp only [lpGe, lpGt, lpLt, lpEq]
    simp only [Bool.not_eq_true', Bool.or_eq_true, Bool.and_eq_true,
      decide_eq_true_eq, decide_eq_false_iff_not, Bool.not_eq_false', beq_iff_eq,
      beq_eq_false_iff_ne, ne_eq]
    try omega
  · intro l r l2 r2
    exact ⟨rfl, rfl⟩

/-- Witness for C7 at concrete addresses 1 < 2 < 3. -/
theorem c7_comparisons_witness :
    lpLt ⟨1, 7, 8⟩ ⟨3, 9, 4⟩ = true ∧ lpLt ⟨2, 0, 0⟩ ⟨1, 5, 5⟩ = false := by
  refine ⟨?_, ?_⟩
  · exact (c7_comparisons ⟨1, 7, 8⟩ ⟨2, 6, 6⟩ ⟨3, 9, 4⟩).2.2.2.2.1 (by decide) (by decide)
  · exact (c7_comparisons ⟨1, 5, 5⟩ ⟨2, 0, 0⟩ ⟨0, 0, 0⟩).2.2.2.1 (by decide)

/-- C8: constructing a handle from a raw pointer always yields a sole
owner: the fresh node is a singleton holding the pointer, and every
existing slot — even one that already stores an identical-looking
address — is left completely untouched, so ring sharing can never arise
from raw construction. -/
theorem c8_raw_sole_owner (s : St) (p : Nat) :
    ptrOf (hMkRaw s p) s.next = p ∧
    uniqueAt (hMkRaw s p) s.next = true ∧
    ∀ i, i ≠ s.next → (hMkRaw s p).objs i = s.objs i := by
  refine ⟨?_, ?_, ?_⟩
  · show ptrOf (alloc s ⟨p, s.next, s.next⟩) s.next = p
    rw [ptrOf_alloc, if_pos rfl]
  · apply uniqueAt_iff.mpr
    constructor
    · show leftOf (alloc s ⟨p, s.next, s.next⟩) s.next = s.next
      rw [leftOf_alloc, if_pos rfl]
    · show rightOf (alloc s ⟨p, s.next, s.next⟩) s.next = s.next
      rw [rightOf_alloc, if_pos rfl]
  · intro i hi
    show (alloc s ⟨p, s.next, s.next⟩).objs i = s.objs i
    rw [objs_alloc, if_neg hi]

/-- Witness for C8: a second raw construction with the very address 5
already owned by handle 0 still leaves handle 0 untouched. -/
theorem c8_raw_sole_owner_witness :
    ptrOf (hMkRaw (exec init [Op.mkRaw 5]) 5) 1 = 5 ∧
    uniqueAt (hMkRaw (exec init [Op.mkRaw 5]) 5) 1 = true ∧
    (hMkRaw (exec init [Op.mkRaw 5]) 5).objs 0 = (exec init [Op.mkRaw 5]).objs 0 := by
  have h := c8_raw_sole_owner (exec init [Op.mkRaw 5]) 5
  exact ⟨h.1, h.2.1, h.2.2 0 (by decide)⟩

/-- C9: copy-constructing from a default-constructed (empty) handle links
the two empty handles into a ring of size two: both get() results are
null, the boolean test is false for both, yet neither handle is unique —
so a false unique() does not imply a held resource. -/
theorem c9_copy_of_empty :
    okRun init [Op.mkDefault, Op.copy 0] = true ∧
    ptrOf (exec init [Op.mkDefault, Op.copy 0]) 0 = 0 ∧
    ptrOf (exec init [Op.mkDefault, Op.copy 0]) 1 = 0 ∧
    hBool (exec init [Op.mkDefault, Op.copy 0]) 0 = false ∧
    hBool (exec init [Op.mkDefault, Op.copy 0]) 1 = false ∧
    uniqueAt (exec init [Op.mkDefault, Op.copy 0]) 0 = false ∧
    uniqueAt (exec init [Op.mkDefault, Op.copy 0]) 1 = false ∧
    rightOf (exec init [Op.mkDefault, Op.copy 0]) 0 = 1 ∧
    rightOf (exec init [Op.mkDefault, Op.copy 0]) 1 = 0 ∧
    leftOf (exec init [Op.mkDefault, Op.copy 0]) 0 = 1 ∧
    leftOf (exec init [Op.mkDefault, Op.copy 0]) 1 = 0 := by
  decide

/-- C10: splice and unsplice are a round trip: inserting a live singleton
node n after a live node t of a well-formed ring and then erasing n
restores every node's left and right neighbours and every resource
reference exactly, leaves the domain, allocation counter and freed log
unchanged, and returns n to a singleton. -/
theorem c10_insert_erase_roundtrip (s : St) (n t : Nat)
    (hSn : (s.objs n).isSome = true)
    (hSt : (s.objs t).isSome = true)
    (hSrt : (s.objs (rightOf s t)).isSome = true)
    (hln : leftOf s n = n) (hrn : rightOf s n = n)
    (hnt : n ≠ t)
    (hlrt : leftOf s (rightOf s t) = t) :
    (∀ x, rightOf (eraseNode (insertAfter s n t) n) x = rightOf s x) ∧
    (∀ x, leftOf (eraseNode (insertAfter s n t) n) x = leftOf s x) ∧
    (∀ x, ptrOf (eraseNode (insertAfter s n t) n) x = ptrOf s x) ∧
    (∀ x, ((eraseNode (insertAfter s n t) n).objs x).isSome = (s.objs x).isSome) ∧
    (eraseNode (insertAfter s n t) n).dom = s.dom ∧
    (eraseNode (insertAfter s n t) n).next = s.next ∧
    (eraseNode (insertAfter s n t) n).freed = s.freed ∧
    uniqueAt (eraseNode (insertAfter s n t) n) n = true := by
  have hnrt : n ≠ rightOf s t := by
    intro hc
    apply hnt
    rw [← hc] at hlrt
    rw [hln] at hlrt
    exact hlrt
  have hS2n : ((insertAfter s n t).objs n).isSome = true := by
    rw [ins_isSome]; exact hSn
  have hS2t : ((insertAfter s n t).objs t).isSome = true := by
    rw [ins_isSome]; exact hSt
  have hS2rt : ((insertAfter s n t).objs (rightOf s t)).isSome = true := by
    rw [ins_isSome]; exact hSrt
  have hR2 : ∀ x, rightOf (insertAfter s n t) x =
      if x = t then n else if x = n then rightOf s t else rightOf s x :=
    ins_rightOf hSn hSt
  have hL2 : ∀ x, leftOf (insertAfter s n t) x =
      if x = n then t else if x = rightOf s t then n else leftOf s x :=
    ins_leftOf hSn hSrt
  have hR2n : rightOf (insertAfter s n t) n = rightOf s t := by
    rw [hR2, if_neg hnt, if_pos rfl]
  have hL2n : leftOf (insertAfter s n t) n = t := by
    rw [hL2, if_pos rfl]
  have hS2l : ((insertAfter s n t).objs (leftOf (insertAfter s n t) n)).isSome = true := by
    rw [hL2n]; exact hS2t
  have hR3 : ∀ x, rightOf (eraseNode (insertAfter s n t) n) x = rightOf s x := by
    intro x
    rw [erase_rightOf hS2n hS2l, hL2n, hR2n]
    by_cases h1 : x = n
    · rw [if_pos h1, h1, hrn]
    · rw [if_neg h1]
      by_cases h2 : x = t
      · rw [if_pos h2, h2]
      · rw [if_neg h2, hR2, if_neg h2, if_neg h1]
  have hS2r2 : ((insertAfter s n t).objs (rightOf (insertAfter s n t) n)).isSome
      = true := by
    rw [hR2n]; exact hS2rt
  have hL3 : ∀ x, leftOf (eraseNode (insertAfter s n t) n) x = leftOf s x := by
    intro x
    rw [erase_leftOf hS2n hS2r2, hR2n, hL2n]
    by_cases h1 : x = n
    · rw [if_pos h1, h1, hln]
    · rw [if_neg h1]
      by_cases h2 : x = rightOf s t
      · rw [if_pos h2, h2, hlrt]
      · rw [if_neg h2, hL2, if_neg h1, if_neg h2]
  refine ⟨hR3, hL3, ?_, ?_, ?_, ?_, ?_, ?_⟩
  · intro x
    rw [erase_ptrOf, ins_ptrOf]
  · intro x
    rw [erase_isSome, ins_isSome]
  · rw [erase_dom, ins_dom]
  · rw [erase_next, ins_next]
  · rw [erase_freed, ins_freed]
  · exact uniqueAt_iff.mpr ⟨(hL3 n).trans hln, (hR3 n).trans hrn⟩

/-- Witness for C10: a singleton (id 2) spliced into the two-member ring
of ids 0 and 1 and unspliced again restores the neighbours of handle 0
and returns 2 to a singleton. -/
theorem c10_insert_erase_roundtrip_witness :
    rightOf (eraseNode (insertAfter
      (exec init [Op.mkRaw 3, Op.copy 0, Op.mkRaw 8]) 2 0) 2) 0 =
      rightOf (exec init [Op.mkRaw 3, Op.copy 0, Op.mkRaw 8]) 0 ∧
    uniqueAt (eraseNode (insertAfter
      (exec init [Op.mkRaw 3, Op.copy 0, Op.mkRaw 8]) 2 0) 2) 2 = true := by
  have h := c10_insert_erase_roundtrip (exec init [Op.mkRaw 3, Op.copy 0, Op.mkRaw 8])
    2 0 (by decide) (by decide) (by decide) (by decide) (by decide) (by decide)
    (by decide)
  exact ⟨h.1 0, h.2.2.2.2.2.2.2⟩

end LinkedPtr
